import Mathlib

/-!
Verification development for the quackfetch library: a shallow embedding of
its URL normalizer, robots.txt checker, HTML result parser, rate-limited
fetcher and search orchestrator, with theorems settling the specification
claims about them.

All string operations are modelled over lists of characters so that every
definition is executable by kernel reduction. JavaScript strings are modelled
as Lean strings (sequences of characters); JavaScript numbers occurring in
the modelled code are non-negative integers in every reachable state, so they
are modelled as Nat.
-/

namespace Quackfetch

/-- Removes the leading segment pat from l, returning the remainder, or none
when pat is not a leading segment of l. -/
def stripPre? : List Char → List Char → Option (List Char)
  | [], l => some l
  | _ :: _, [] => none
  | p :: ps, c :: cs => if p = c then stripPre? ps cs else none

/-- Splits a character list at every non-overlapping occurrence of the
separator s0 :: ss, scanning left to right; acc holds the reversed
characters of the current segment. Mirrors the splitting behaviour of the
JavaScript String.split method for a non-empty separator. The fuel
parameter only bounds the recursion; every call sites passes the length of
the scanned list, which each step strictly decreases, so the fuel-exhausted
branch is unreachable. -/
def splitGo (s0 : Char) (ss : List Char) : Nat → List Char → List Char → List (List Char)
  | _, [], acc => [acc.reverse]
  | fuel + 1, c :: cs, acc =>
    match stripPre? (s0 :: ss) (c :: cs) with
    | some rest => acc.reverse :: splitGo s0 ss fuel rest []
    | none => splitGo s0 ss fuel cs (c :: acc)
  | 0, l, acc => [acc.reverse ++ l]

/-- JavaScript String.split with a non-empty separator (an empty separator
never occurs in the modelled code; it falls back to the whole string). -/
def jsSplit (s sep : String) : List String :=
  match sep.data with
  | [] => [s]
  | s0 :: ss => (splitGo s0 ss s.data.length s.data []).map String.mk

/-- JavaScript String.includes: does sub occur inside s (always true for the
empty search string). -/
def jsIncludes (s sub : String) : Bool :=
  match sub.data with
  | [] => true
  | s0 :: ss => (splitGo s0 ss s.data.length s.data []).length ≥ 2

/-- Does the character list l start with the segment p. -/
def startsWithL (l p : List Char) : Bool :=
  (stripPre? p l).isSome

/-- JavaScript String.startsWith. -/
def jsStartsWith (s pre : String) : Bool :=
  startsWithL s.data pre.data

/-- JavaScript String.endsWith. -/
def jsEndsWith (s suf : String) : Bool :=
  startsWithL s.data.reverse suf.data.reverse

/-- JavaScript String.trim (whitespace at both ends removed). -/
def jsTrim (s : String) : String :=
  String.mk (((s.data.dropWhile Char.isWhitespace).reverse.dropWhile
    Char.isWhitespace).reverse)

/-- JavaScript String.toLowerCase, for the ASCII range that the modelled
inputs use. -/
def jsToLower (s : String) : String :=
  String.mk (s.data.map Char.toLower)

/-- JavaScript String.substring(n) / String.slice(n): drop the first n
characters. -/
def jsDrop (s : String) (n : Nat) : String :=
  String.mk (s.data.drop n)

/-- JavaScript String.slice(0, -1): drop the last n characters. -/
def jsDropRight (s : String) (n : Nat) : String :=
  String.mk (s.data.take (s.data.length - n))

/-- JavaScript String.substring(0, n): take the first n characters. -/
def jsTake (s : String) (n : Nat) : String :=
  String.mk (s.data.take n)

/-- Numeric value of one hexadecimal digit character, if any. -/
def hexVal (c : Char) : Option Nat :=
  let n := c.toNat
  if 48 ≤ n ∧ n ≤ 57 then some (n - 48)
  else if 65 ≤ n ∧ n ≤ 70 then some (n - 55)
  else if 97 ≤ n ∧ n ≤ 102 then some (n - 87)
  else none

/-- Upper-case hexadecimal digit for a value below 16. -/
def hexDigitU (n : Nat) : Char :=
  if n < 10 then Char.ofNat (48 + n) else Char.ofNat (55 + n)

/-- Two upper-case hexadecimal digits for a byte value. -/
def hexByte (n : Nat) : List Char :=
  [hexDigitU (n / 16 % 16), hexDigitU (n % 16)]

/-- UTF-8 bytes of one character (byte values as Nat). -/
def utf8Bytes (c : Char) : List Nat :=
  let n := c.toNat
  if n < 128 then [n]
  else if n < 2048 then [192 + n / 64, 128 + n % 64]
  else if n < 65536 then [224 + n / 4096, 128 + n / 64 % 64, 128 + n % 64]
  else [240 + n / 262144, 128 + n / 4096 % 64, 128 + n / 64 % 64, 128 + n % 64]

/-- Characters the ECMAScript encodeURIComponent operation leaves unescaped:
letters, digits and - _ . ! ~ * ( ) and the apostrophe (code 39). -/
def uriUnreserved (c : Char) : Bool :=
  c.isAlphanum || c ∈ ['-', '_', '.', '!', '~', '*', '(', ')', Char.ofNat 39]

/-- ECMAScript encodeURIComponent over a character list: unreserved
characters pass through, every other character is replaced by the
percent-escapes of its UTF-8 bytes, upper-case hex. -/
def encodeURIComponentL : List Char → List Char
  | [] => []
  | c :: cs =>
    (if uriUnreserved c then [c]
     else (utf8Bytes c).flatMap (fun b => '%' :: hexByte b)) ++
    encodeURIComponentL cs

/-- ECMAScript encodeURIComponent. -/
def encodeURIComponent (s : String) : String :=
  String.mk (encodeURIComponentL s.data)

/-- Is b a UTF-8 continuation byte. -/
def isCont (b : Nat) : Bool := 128 ≤ b ∧ b ≤ 191

/-- Decodes a byte list as UTF-8, failing on any ill-formed sequence
(stray continuation byte, truncated or overlong sequence, surrogate or
out-of-range code point), as the ECMAScript decodeURIComponent operation
does. -/
def utf8Decode : List Nat → Option (List Char)
  | [] => some []
  | b0 :: bs =>
    if b0 < 128 then
      (utf8Decode bs).map (fun cs => Char.ofNat b0 :: cs)
    else if 194 ≤ b0 ∧ b0 ≤ 223 then
      match bs with
      | b1 :: rest =>
        if isCont b1 then
          let n := (b0 - 192) * 64 + (b1 - 128)
          (utf8Decode rest).map (fun cs => Char.ofNat n :: cs)
        else none
      | _ => none
    else if 224 ≤ b0 ∧ b0 ≤ 239 then
      match bs with
      | b1 :: b2 :: rest =>
        if isCont b1 && isCont b2 then
          let n := (b0 - 224) * 4096 + (b1 - 128) * 64 + (b2 - 128)
          if 2048 ≤ n ∧ Nat.isValidChar n then
            (utf8Decode rest).map (fun cs => Char.ofNat n :: cs)
          else none
        else none
      | _ => none
    else if 240 ≤ b0 ∧ b0 ≤ 244 then
      match bs with
      | b1 :: b2 :: b3 :: rest =>
        if isCont b1 && isCont b2 && isCont b3 then
          let n := (b0 - 240) * 262144 + (b1 - 128) * 4096 + (b2 - 128) * 64 + (b3 - 128)
          if 65536 ≤ n ∧ n ≤ 1114111 then
            (utf8Decode rest).map (fun cs => Char.ofNat n :: cs)
          else none
        else none
      | _ => none
    else none

/-- Reads the maximal run of consecutive percent-escapes at the head of the
list into byte values, failing on a malformed escape; returns the bytes and
the unconsumed remainder. -/
def collectBytes : List Char → Option (List Nat × List Char)
  | '%' :: c1 :: c2 :: rest =>
    match hexVal c1, hexVal c2 with
    | some h1, some h2 =>
      match collectBytes rest with
      | some (bs, rem) => some ((h1 * 16 + h2) :: bs, rem)
      | none => none
    | _, _ => none
  | '%' :: _ => none
  | l => some ([], l)

/-- ECMAScript decodeURIComponent over a character list: unescaped
characters pass through; each maximal run of percent-escapes must decode as
well-formed UTF-8; any malformed escape or ill-formed byte sequence fails
(models the URIError throw). -/
def uriDecodeGo : Nat → List Char → Option (List Char)
  | _, [] => some []
  | fuel + 1, '%' :: rest =>
    match collectBytes ('%' :: rest) with
    | some (bs, rem) =>
      match utf8Decode bs with
      | some cs => (uriDecodeGo fuel rem).map (fun tail => cs ++ tail)
      | none => none
    | none => none
  | fuel + 1, c :: rest => (uriDecodeGo fuel rest).map (fun tail => c :: tail)
  | 0, _ :: _ => none

/-- Entry point at the scanned length, which bounds the recursion: each
step consumes at least one character (a percent run consumes three per
byte), so the fuel never runs out. -/
def uriDecodeL (l : List Char) : Option (List Char) :=
  uriDecodeGo l.length l

/-- ECMAScript decodeURIComponent, as an optional result in place of the
URIError throw. -/
def decodeURIComponent (s : String) : Option String :=
  (uriDecodeL s.data).map String.mk

/-- Splits a character list at the first occurrence of the segment sep,
returning the part before and the part after (sep removed), or none when sep
does not occur. -/
def breakOnSeq (sep : List Char) : List Char → Option (List Char × List Char)
  | [] => none
  | c :: cs =>
    match stripPre? sep (c :: cs) with
    | some rest => some ([], rest)
    | none => (breakOnSeq sep cs).map (fun p => (c :: p.1, p.2))

/-- Splits a character list at the first character contained in stops (the
stop character stays at the head of the second part). -/
def splitAtStops (stops : List Char) (l : List Char) : List Char × List Char :=
  (l.takeWhile (fun c => !stops.contains c), l.dropWhile (fun c => !stops.contains c))

/-- The components of a parsed WHATWG URL, restricted to the shape the
modelled code produces and consumes: an http or https scheme, a host
without userinfo or port, a path, an optional raw query (without the
question mark) and an optional raw fragment (without the hash). -/
structure URLRec where
  scheme : String
  host : String
  pathname : String
  query : Option String
  fragment : Option String
deriving DecidableEq, Repr

/-- Code points the WHATWG URL host parser rejects. -/
def forbiddenHostChar (c : Char) : Bool :=
  c.toNat < 33 || c ∈ ['#', '/', ':', '<', '>', '?', '@', '[', '\\', ']', '^', '|', '%']

/-- The WHATWG URL parser (the JavaScript URL constructor), modelled for the
subset of inputs the code exercises: absolute http(s) URLs without userinfo,
port, dot-segments or percent-normalization needs. Inputs outside this
subset fail to parse, modelling the TypeError throw. -/
def parseURL (s : String) : Option URLRec :=
  let cs := (jsTrim s).data
  match breakOnSeq "://".data cs with
  | none => none
  | some (schemeCs, rest) =>
    let schemeL := String.mk (schemeCs.map Char.toLower)
    if schemeCs ≠ [] ∧ schemeCs.all Char.isAlpha ∧ (schemeL = "http" ∨ schemeL = "https") then
      let (hostCs, rest2) := splitAtStops ['/', '?', '#'] rest
      if hostCs = [] ∨ hostCs.any forbiddenHostChar then none
      else
        let host := String.mk (hostCs.map Char.toLower)
        let (pathCs, rest3) := splitAtStops ['?', '#'] rest2
        let pathname := if pathCs = [] then "/" else String.mk pathCs
        match rest3 with
        | [] => some ⟨schemeL, host, pathname, none, none⟩
        | c :: r =>
          if c = '?' then
            let (qCs, rest4) := splitAtStops ['#'] r
            match rest4 with
            | c2 :: fr =>
              if c2 = '#' then
                some ⟨schemeL, host, pathname, some (String.mk qCs), some (String.mk fr)⟩
              else some ⟨schemeL, host, pathname, some (String.mk qCs), none⟩
            | [] => some ⟨schemeL, host, pathname, some (String.mk qCs), none⟩
          else if c = '#' then some ⟨schemeL, host, pathname, none, some (String.mk r)⟩
          else none
    else none

/-- WHATWG URL serialization (the href getter / toString method) for the
modelled subset. -/
def urlToString (u : URLRec) : String :=
  u.scheme ++ "://" ++ u.host ++ u.pathname ++
  (match u.query with | some q => "?" ++ q | none => "") ++
  (match u.fragment with | some f => "#" ++ f | none => "")

/-- The JavaScript search getter: question mark plus query, or the empty
string when the query is absent or empty. -/
def urlSearch (u : URLRec) : String :=
  match u.query with
  | some q => if q = "" then "" else "?" ++ q
  | none => ""

/-- application/x-www-form-urlencoded decoding of one token: plus becomes
space, a valid percent-escape becomes its byte (taken directly as a code
point, which agrees with the platform on the ASCII inputs the claims use),
and a malformed escape stays literal. -/
def formDecodeC : List Char → List Char
  | [] => []
  | '+' :: rest => ' ' :: formDecodeC rest
  | '%' :: c1 :: c2 :: rest =>
    match hexVal c1, hexVal c2 with
    | some h1, some h2 => Char.ofNat (h1 * 16 + h2) :: formDecodeC rest
    | _, _ => '%' :: formDecodeC (c1 :: c2 :: rest)
  | c :: rest => c :: formDecodeC rest

/-- application/x-www-form-urlencoded parsing of a query string into a
key-value list, as URLSearchParams does: split on ampersands, skip empty
segments, split each segment at its first equals sign. -/
def formParse (q : String) : List (String × String) :=
  if q.data = [] then []
  else
    (jsSplit q "&").filterMap (fun seg =>
      if seg.data = [] then none
      else
        let kv := match breakOnSeq ['='] seg.data with
          | some (k, v) => (k, v)
          | none => (seg.data, [])
        some (String.mk (formDecodeC kv.1), String.mk (formDecodeC kv.2)))

/-- Characters application/x-www-form-urlencoded serialization leaves
unescaped. -/
def formUnreserved (c : Char) : Bool :=
  c.isAlphanum || c ∈ ['*', '-', '.', '_']

/-- application/x-www-form-urlencoded encoding of one token: space becomes
plus, unreserved characters pass through, everything else becomes the
percent-escapes of its UTF-8 bytes. -/
def formEncodeC : List Char → List Char
  | [] => []
  | c :: rest =>
    (if c = ' ' then ['+']
     else if formUnreserved c then [c]
     else (utf8Bytes c).flatMap (fun b => '%' :: hexByte b)) ++ formEncodeC rest

/-- application/x-www-form-urlencoded serialization of a key-value list, as
URLSearchParams toString does. -/
def formSerialize (ps : List (String × String)) : String :=
  String.mk ((((ps.map (fun p =>
    formEncodeC p.1.data ++ '=' :: formEncodeC p.2.data)).intersperse ['&'])).flatten)

/-- The fixed list of tracking query parameters removed by normalizeUrl,
copied from src/utils.js. -/
def trackingParams : List String :=
  ["utm_source", "utm_medium", "utm_campaign", "utm_term", "utm_content",
   "ref", "source", "fbclid", "gclid", "msclkid", "twclid",
   "igshid", "_ga", "_gid", "mc_cid", "mc_eid"]

/-- A JavaScript value as it can reach the url parameter of normalizeUrl:
a string or one of the non-string shapes the guard rejects. -/
inductive JSValue where
  | str (s : String)
  | nullV
  | undefinedV
  | boolV (b : Bool)
  | numV (n : Int)
deriving DecidableEq, Repr

/-- src/utils.js normalizeUrl: empty for falsy or non-string input; parse
the URL (returning the input unchanged on parse failure); delete the
tracking parameters (which re-serializes the query in form-urlencoded form,
dropping the question mark when no parameters remain); finally drop the last
character when the serialized URL ends with a slash and the path is not
exactly a single slash. -/
def normalizeUrl (url : JSValue) : String :=
  match url with
  | .str s =>
    if s = "" then ""
    else
      match parseURL s with
      | none => s
      | some u =>
        let params := formParse (u.query.getD "")
        let params2 := params.filter (fun p => !trackingParams.contains p.1)
        let u2 : URLRec :=
          { u with query := if params2.isEmpty then none else some (formSerialize params2) }
        let normalized := urlToString u2
        if jsEndsWith normalized "/" && u.pathname ≠ "/" then jsDropRight normalized 1
        else normalized
  | _ => ""

/-- Drops a leading www. from a hostname (the replace with an anchored
regular expression in src/parser.js extractDomain). -/
def stripWww (h : String) : String :=
  if jsStartsWith h "www." then jsDrop h 4 else h

/-- The regular expression scan of src/parser.js extractDomain: the first
position where http:// or https:// is followed by at least one character
other than a slash; captures that run. -/
def hostScan : List Char → Option String
  | [] => none
  | c :: cs =>
    match stripPre? "https://".data (c :: cs) <|> stripPre? "http://".data (c :: cs) with
    | some after =>
      let run := after.takeWhile (fun x => x ≠ '/')
      if run.isEmpty then hostScan cs else some (String.mk run)
    | none => hostScan cs

/-- src/parser.js extractDomain: hostname of the parsed URL without a
leading www., or the regular-expression fallback, or the empty string. -/
def extractDomain (url : String) : String :=
  if url = "" then ""
  else
    match parseURL url with
    | some u => stripWww u.host
    | none =>
      match hostScan url.data with
      | some h => stripWww h
      | none => ""

/-- src/utils.js pathMatchesRule: false for an empty rule or path, then
exact match, then wildcard-suffix match (rule ending in a star: path starts
with the rule minus the star), then plain prefix match. -/
def pathMatchesRule (path rule : String) : Bool :=
  if rule = "" ∨ path = "" then false
  else if path = rule then true
  else if jsEndsWith rule "*" then jsStartsWith path (jsDropRight rule 1)
  else jsStartsWith path rule

/-- Accumulation state of the robots.txt line scan in src/utils.js
checkRobotsTxt: the current applicable agent (none while outside an
applicable record) and the disallow and allow rules gathered so far. -/
structure RobotsState where
  cur : Option String
  dis : List String
  alw : List String
deriving DecidableEq, Repr

/-- The shared rule handling of one non-agent line: a disallow line with a
non-empty value appends it, an empty disallow clears the disallow rules, an
allow line with a non-empty value appends it, anything else is ignored. -/
def ruleStep (p : List String × List String) (line : String) : List String × List String :=
  let lower := jsToLower line
  if jsStartsWith lower "disallow:" then
    let rule := jsTrim (jsDrop line 9)
    if rule ≠ "" then (p.1 ++ [rule], p.2) else ([], p.2)
  else if jsStartsWith lower "allow:" then
    let rule := jsTrim (jsDrop line 6)
    if rule ≠ "" then (p.1, p.2 ++ [rule]) else p
  else p

/-- One line of the scan loop of src/utils.js checkRobotsTxt: a user-agent
line either opens an applicable record (resetting both rule lists) or
closes rule gathering; other lines update the rules only while inside an
applicable record. -/
def robotsStep (userAgent : String) (st : RobotsState) (line : String) : RobotsState :=
  let lower := jsToLower line
  if jsStartsWith lower "user-agent:" then
    let agent := jsTrim (jsDrop line 11)
    if agent = "*" || jsIncludes userAgent agent then ⟨some agent, [], []⟩
    else ⟨none, st.dis, st.alw⟩
  else
    match st.cur with
    | none => st
    | some _ =>
      let p := ruleStep (st.dis, st.alw) line
      ⟨st.cur, p.1, p.2⟩

/-- The whole line scan of src/utils.js checkRobotsTxt: split on newlines,
trim each line, fold the step over them. -/
def robotsCollect (txt userAgent : String) : RobotsState :=
  ((jsSplit txt "\n").map jsTrim).foldl (robotsStep userAgent) ⟨none, [], []⟩

/-- The final loop of src/utils.js checkRobotsTxt: scan the disallow rules;
on the first one matching the path with no allow rule matching, return
false; otherwise true. -/
def robotsFinal (path : String) (alw : List String) : List String → Bool
  | [] => true
  | r :: rest =>
    if pathMatchesRule path r && !(alw.any (fun a => pathMatchesRule path a)) then false
    else robotsFinal path alw rest

/-- src/utils.js checkRobotsTxt; the first argument models the JavaScript
string-or-null parameter, with none for null and the falsy empty string
handled as the source does. -/
def checkRobotsTxt (robotsTxt : Option String) (userAgent path : String) : Bool :=
  match robotsTxt with
  | none => true
  | some txt =>
    if txt = "" then true
    else
      let st := robotsCollect txt userAgent
      robotsFinal path st.alw st.dis

/-- A robots.txt record as the specification describes it: the agent it
declares and the body lines that follow until the next user-agent line. -/
structure RobotsRecord where
  agent : String
  body : List String
deriving DecidableEq, Repr

/-- Groups trimmed robots.txt lines into records: every user-agent line
starts a record, other lines extend the body of the most recent record, and
lines before the first user-agent line belong to no record. The accumulator
holds the records gathered so far in reverse. -/
def recordsGo : List RobotsRecord → List String → List RobotsRecord
  | acc, [] => acc.reverse
  | acc, line :: rest =>
    if jsStartsWith (jsToLower line) "user-agent:" then
      recordsGo (⟨jsTrim (jsDrop line 11), []⟩ :: acc) rest
    else
      match acc with
      | [] => recordsGo [] rest
      | r :: rs => recordsGo ({ r with body := r.body ++ [line] } :: rs) rest

/-- The records of a robots.txt text. -/
def robotsRecords (txt : String) : List RobotsRecord :=
  recordsGo [] ((jsSplit txt "\n").map jsTrim)

/-- A record applies to the caller when its agent is the star wildcard or a
substring of the caller user agent. -/
def applicableRecord (userAgent : String) (r : RobotsRecord) : Bool :=
  r.agent = "*" || jsIncludes userAgent r.agent

/-- The disallow and allow rules contributed by a record body. -/
def rulesOfBody (body : List String) : List String × List String :=
  body.foldl ruleStep ([], [])

/-- The rules of the last record applicable to the caller, as the
specification phrases it; no applicable record yields no rules. -/
def lastApplicableRules (txt userAgent : String) : List String × List String :=
  match ((robotsRecords txt).filter (applicableRecord userAgent)).getLast? with
  | some r => rulesOfBody r.body
  | none => ([], [])

/-- The matching relation the specification ascribes to rules: exact
equality, prefix match, or wildcard-suffix prefix match. -/
def specRuleMatch (path rule : String) : Prop :=
  path = rule ∨ rule.data <+: path.data ∨
    (rule.data.getLast? = some '*' ∧ rule.data.dropLast <+: path.data)

instance (path rule : String) : Decidable (specRuleMatch path rule) := by
  unfold specRuleMatch
  infer_instance

/-- What the cheerio selection extracts from one primary result container
(div.result or div.web-result): the text and href attribute of the main
link selection (a.result__a, a.result-link), the texts of the two snippet
selections, and the text of the source selection (span.result__url,
a.result__url). The href is none when the link has no href attribute. -/
structure RawResult where
  linkText : String
  linkHref : Option String
  snippetMain : String
  snippetSpan : String
  sourceText : String
deriving DecidableEq, Repr

/-- What the cheerio selection extracts from one fallback container (any
div whose class contains "result"): the container text and the text and
href of its first link. -/
structure RawFallback where
  containerText : String
  linkText : String
  linkHref : Option String
deriving DecidableEq, Repr

/-- A parsed search result, as src/parser.js builds it; the cached flag is
absent unless the orchestrator stamps it on a cache hit. -/
structure SearchResult where
  title : String
  url : String
  snippet : String
  rank : Nat
  source : String
  retrievedAt : String
  cached : Option Bool := none
deriving DecidableEq, Repr

/-- The regular expression capture of uddg=([^&]+): the first position
where uddg= is followed by at least one character other than an ampersand;
captures the maximal such run. -/
def uddgCapture : List Char → Option String
  | [] => none
  | c :: cs =>
    match stripPre? "uddg=".data (c :: cs) with
    | some after =>
      let run := after.takeWhile (fun x => x ≠ '&')
      if run.isEmpty then uddgCapture cs else some (String.mk run)
    | none => uddgCapture cs

/-- JavaScript String.replace with a plain string pattern: replaces the
first occurrence of pat with the empty string (the only replacement the
modelled code performs). -/
def replaceFirstEmpty (s pat : String) : String :=
  match pat.data with
  | [] => s
  | p0 :: ps =>
    match breakOnSeq (p0 :: ps) s.data with
    | some (before, after) => String.mk (before ++ after)
    | none => s

/-- The redirect unwrapping of src/parser.js parseSearchHtml: for a
/l/?uddg= href, percent-decode everything after the first uddg= (as
String.split returns it); on decode failure fall back to the regular
expression capture, then to the raw href. For a /l/?kh= href, use the
regular expression capture directly. Otherwise keep the raw href. -/
def decodeRedirectUrl (rawUrl : String) : String :=
  if jsStartsWith rawUrl "/l/?uddg=" then
    let tail := ((jsSplit rawUrl "uddg=").drop 1).headD ""
    match decodeURIComponent tail with
    | some d => d
    | none =>
      match uddgCapture rawUrl.data with
      | some m =>
        match decodeURIComponent m with
        | some d => d
        | none => rawUrl
      | none => rawUrl
  else if jsStartsWith rawUrl "/l/?kh=" then
    match uddgCapture rawUrl.data with
    | some m =>
      match decodeURIComponent m with
      | some d => d
      | none => rawUrl
    | none => rawUrl
  else rawUrl

/-- The body of the primary result loop of src/parser.js parseSearchHtml
for one container, appending to the accumulated results: extract title and
href, unwrap redirects, pick the snippet and source with their fallbacks,
and emit a result unless both title and url are empty. -/
def emitPrimary (now : String) (acc : List SearchResult) (el : RawResult) : List SearchResult :=
  let title := jsTrim el.linkText
  let rawUrl := el.linkHref.getD ""
  let url := decodeRedirectUrl rawUrl
  let snippet :=
    if jsTrim el.snippetMain ≠ "" then jsTrim el.snippetMain
    else jsTrim el.snippetSpan
  let source :=
    if jsTrim el.sourceText ≠ "" then jsTrim el.sourceText
    else extractDomain url
  if title ≠ "" || url ≠ "" then
    let normalizedUrl := normalizeUrl (JSValue.str url)
    acc ++ [{ title := if title ≠ "" then title else "Untitled",
              url := normalizedUrl,
              snippet := snippet,
              rank := acc.length + 1,
              source := if source ≠ "" then source else extractDomain normalizedUrl,
              retrievedAt := now }]
  else acc

/-- The each-loop shape shared by both parsing strategies: the callback
returns false (breaking the iteration) as soon as the accumulated count
reaches maxResults, and otherwise lets the body extend the accumulator. -/
def boundedLoop {α : Type} (emit : List SearchResult → α → List SearchResult)
    (maxResults : Nat) : List α → List SearchResult → List SearchResult
  | [], acc => acc
  | el :: rest, acc =>
    if acc.length ≥ maxResults then acc
    else boundedLoop emit maxResults rest (emit acc el)

/-- The primary result loop of src/parser.js parseSearchHtml. -/
def primaryLoop (now : String) (maxResults : Nat)
    (els : List RawResult) (acc : List SearchResult) : List SearchResult :=
  boundedLoop (emitPrimary now) maxResults els acc

/-- The body of the fallback loop of src/parser.js parseSearchHtml for one
container: first link text and href, snippet from the container text minus
the first occurrence of the title, truncated to 200 characters. -/
def emitFallback (now : String) (acc : List SearchResult) (el : RawFallback) : List SearchResult :=
  let title := jsTrim el.linkText
  let url := el.linkHref.getD ""
  let snippet := jsTrim (replaceFirstEmpty (jsTrim el.containerText) title)
  if title ≠ "" || url ≠ "" then
    acc ++ [{ title := if title ≠ "" then title else "Untitled",
              url := normalizeUrl (JSValue.str url),
              snippet := jsTake snippet 200,
              rank := acc.length + 1,
              source := extractDomain url,
              retrievedAt := now }]
  else acc

/-- The fallback result loop, with the same early break at maxResults. -/
def fallbackLoop (now : String) (maxResults : Nat)
    (els : List RawFallback) (acc : List SearchResult) : List SearchResult :=
  boundedLoop (emitFallback now) maxResults els acc

/-- The selections cheerio provides to src/parser.js parseSearchHtml for
one HTML document: the primary containers in document order and the
fallback containers in document order. -/
structure HtmlDoc where
  primaryEls : List RawResult
  fallbackEls : List RawFallback
deriving Repr

/-- src/parser.js parseSearchHtml over the selection view of its HTML
input: none models a falsy or non-string html argument, which yields no
results; the fallback strategy runs only when the primary strategy yields
zero results. The now argument is the ISO timestamp the impure Date
constructor would produce. -/
def parseSearchHtml (doc : Option HtmlDoc) (maxResults : Nat) (now : String) :
    List SearchResult :=
  match doc with
  | none => []
  | some d =>
    let results := primaryLoop now maxResults d.primaryEls []
    if results.length = 0 then fallbackLoop now maxResults d.fallbackEls []
    else results

/-- A JavaScript Error as the fetcher observes it: its name and message. -/
structure JsError where
  name : String
  message : String
deriving DecidableEq, Repr

/-- The outcome the network oracle assigns to one HTTP attempt: a 2xx
response with a body, a non-2xx response (which the code turns into a
thrown error), a thrown network error, or an abort by the attempt
timeout. -/
inductive AttemptOutcome where
  | success (body : String)
  | httpError (status : Nat) (statusText : String)
  | netError (name message : String)
  | aborted
deriving DecidableEq, Repr

/-- The error an unsuccessful attempt outcome surfaces as. -/
def outcomeError : AttemptOutcome → JsError
  | .success _ => ⟨"", ""⟩
  | .httpError status statusText => ⟨"Error", "HTTP " ++ Nat.repr status ++ ": " ++ statusText⟩
  | .netError n m => ⟨n, m⟩
  | .aborted => ⟨"AbortError", "This operation was aborted"⟩

/-- Observable events of a fetch run: an HTTP request to url started at a
time, a sleep of some milliseconds, and a write of a rate-limit tracker
timestamp. Time is milliseconds as Date.now returns it. -/
inductive FetchEvent where
  | request (url : String) (startTime : Nat)
  | slept (ms : Nat)
  | rlUpdate (host : String) (time : Nat)
deriving DecidableEq, Repr

/-- Is the event an HTTP request. -/
def FetchEvent.isRequest : FetchEvent → Bool
  | .request _ _ => true
  | _ => false

/-- Is the event a rate-limit tracker write. -/
def FetchEvent.isRlUpdate : FetchEvent → Bool
  | .rlUpdate _ _ => true
  | _ => false

/-- The start time of a request event. -/
def FetchEvent.startOf : FetchEvent → Nat
  | .request _ t => t
  | .slept _ => 0
  | .rlUpdate _ t => t

/-- The sleep durations of a run, in order. -/
def sleptList (events : List FetchEvent) : List Nat :=
  events.filterMap (fun e => match e with | .slept ms => some ms | _ => none)

/-- The options of src/fetcher.js fetchHtml after defaulting. -/
structure FetchOptions where
  userAgent : String := "quackfetch/0.1 (+https://github.com/your-repo/quackfetch)"
  timeout : Nat := 10000
  retries : Nat := 2
  retryDelay : Nat := 1000
  checkRobots : Bool := true
deriving DecidableEq, Repr

/-- The attempt loop of src/fetcher.js fetchHtml. The oracle gives the
outcome of each attempt by index and dur its duration in milliseconds; left
counts the attempts still allowed after the current one (so the loop starts
with left = retries and attempt = 0). An abort or a robots.txt error is
rethrown without retry; other failures back off retryDelay times two to the
attempt index and retry while attempts remain, after which the wrapper
error names the url, the total attempt count and the last message. -/
def fetchGo (url : String) (retries retryDelay : Nat) (oracle : Nat → AttemptOutcome)
    (dur : Nat → Nat) :
    Nat → Nat → Nat → List FetchEvent → Nat × List FetchEvent × Except JsError String
  | left, attempt, time, events =>
    let o := oracle attempt
    let endTime := time + dur attempt
    let events := events ++ [.request url time]
    match o with
    | .success body => (endTime, events, .ok body)
    | _ =>
      let e := outcomeError o
      if e.name = "AbortError" || jsIncludes e.message "robots.txt" then
        (endTime, events, .error e)
      else
        match left with
        | 0 =>
          (endTime, events, .error ⟨"Error",
            "Failed to fetch " ++ url ++ " after " ++ Nat.repr (retries + 1) ++
            " attempts: " ++ e.message⟩)
        | left' + 1 =>
          let delay := retryDelay * 2 ^ attempt
          fetchGo url retries retryDelay oracle dur left' (attempt + 1)
            (endTime + delay) (events ++ [.slept delay])

/-- The robots gate of src/fetcher.js fetchHtml: true when robots checking
is enabled, a robots.txt text was retrieved (non-null and non-empty, the
JavaScript truthiness test), and the checker disallows the path. -/
def robotsGate (opts : FetchOptions) (robotsTxt : Option String) (path : String) : Bool :=
  opts.checkRobots &&
    match robotsTxt with
    | some txt => txt ≠ "" && !(checkRobotsTxt (some txt) opts.userAgent path)
    | none => false

/-- src/fetcher.js fetchHtml: parse the url (the URL constructor throw on
failure), optionally gate on robots.txt (robotsTxt models what
fetchRobotsTxt returned: none for null), then run the attempt loop. The
robots.txt retrieval and check are instantaneous in this model. -/
def fetchHtml (url : String) (opts : FetchOptions) (robotsTxt : Option String)
    (oracle : Nat → AttemptOutcome) (dur : Nat → Nat) (time : Nat) :
    Nat × List FetchEvent × Except JsError String :=
  match parseURL url with
  | none => (time, [], .error ⟨"TypeError", "Invalid URL"⟩)
  | some u =>
    let path := u.pathname ++ urlSearch u
    if robotsGate opts robotsTxt path then
      (time, [], .error ⟨"Error", "Access to " ++ path ++ " is disallowed by robots.txt"⟩)
    else
      fetchGo url opts.retries opts.retryDelay oracle dur opts.retries 0 time []

/-- The per-host rate-limit trackers of src/fetcher.js: for each host its
lastRequest timestamp and the rateLimitMs recorded at creation. -/
structure RLState where
  map : List (String × Nat × Nat)
deriving DecidableEq, Repr

/-- src/fetcher.js getRateLimitTracker: look up the host, creating a
tracker with lastRequest zero when absent. -/
def getRateLimitTracker (host : String) (rateLimitMs : Nat) (st : RLState) :
    (Nat × Nat) × RLState :=
  match st.map.find? (fun p => p.1 = host) with
  | some p => (p.2, st)
  | none => ((0, rateLimitMs), ⟨st.map ++ [(host, 0, rateLimitMs)]⟩)

/-- Writes the lastRequest timestamp of a tracked host. -/
def setLastRequest (host : String) (t : Nat) (st : RLState) : RLState :=
  ⟨st.map.map (fun p => if p.1 = host then (p.1, t, p.2.2) else p)⟩

/-- src/fetcher.js enforceRateLimit: when the time since the tracked
lastRequest is below rateLimitMs, sleep the difference; then record the
current time as lastRequest. Returns the new state, the time after the
wait, and the events. -/
def enforceRateLimit (host : String) (rateLimitMs : Nat) (st : RLState) (time : Nat) :
    RLState × Nat × List FetchEvent :=
  let tr := getRateLimitTracker host rateLimitMs st
  let lastRequest := tr.1.1
  let st1 := tr.2
  let timeSince := time - lastRequest
  let waited : Nat × List FetchEvent :=
    if timeSince < rateLimitMs then
      (time + (rateLimitMs - timeSince), [.slept (rateLimitMs - timeSince)])
    else (time, [])
  (setLastRequest host waited.1 st1, waited.1,
    waited.2 ++ [.rlUpdate host waited.1])

/-- The fixed host of the DuckDuckGo HTML endpoint. -/
def ddgHost : String := "html.duckduckgo.com"

/-- The options of src/fetcher.js searchDuckDuckGoHtml after defaulting. -/
structure SearchFetchOptions where
  userAgent : String := "quackfetch/0.1 (+https://github.com/your-repo/quackfetch)"
  rateLimitMs : Nat := 1000
  timeout : Nat := 10000
  checkRobots : Bool := true
deriving DecidableEq, Repr

/-- src/fetcher.js searchDuckDuckGoHtml: build the search URL with
encodeURIComponent, enforce the rate limit for the fixed host, then
delegate to fetchHtml, which applies its own defaults for retries and
retryDelay since searchDuckDuckGoHtml does not pass them. -/
def searchDuckDuckGoHtml (query : String) (opts : SearchFetchOptions)
    (robotsTxt : Option String) (oracle : Nat → AttemptOutcome) (dur : Nat → Nat)
    (st : RLState) (time : Nat) :
    RLState × Nat × List FetchEvent × Except JsError String :=
  let encodedQuery := encodeURIComponent query
  let searchUrl := "https://html.duckduckgo.com/html/?q=" ++ encodedQuery
  let rl := enforceRateLimit ddgHost opts.rateLimitMs st time
  let fetched := fetchHtml searchUrl
    { userAgent := opts.userAgent, timeout := opts.timeout,
      checkRobots := opts.checkRobots } robotsTxt oracle dur rl.2.1
  (rl.1, fetched.1, rl.2.2 ++ fetched.2.1, fetched.2.2)

/-- Modelled from the spec: the result cache. src/cache.js only constructs
an LRUCache from the external lru-cache package (with updateAgeOnGet and
updateAgeOnHas false) and delegates get, set, has and clear to it; the
package itself is not part of the repository, so the entry store is
modelled from the specification: a bounded mapping in insertion order with
per-entry expiry ttl milliseconds after insertion, reads not refreshing
recency, and eviction of the least-recently-inserted entry on overflow. -/
structure SpecCache where
  maxSize : Nat
  ttl : Nat
  entries : List (String × List SearchResult × Nat)
deriving DecidableEq, Repr

/-- A fresh empty cache. -/
def SpecCache.empty (maxSize ttl : Nat) : SpecCache := ⟨maxSize, ttl, []⟩

/-- Modelled from the spec: set stores the value under the key with the
current time as insertion time (replacing any previous entry for the key),
then evicts from the least-recently-inserted end until the capacity bound
holds. -/
def SpecCache.set (c : SpecCache) (k : String) (v : List SearchResult) (now : Nat) :
    SpecCache :=
  let kept := c.entries.filter (fun e => e.1 ≠ k)
  let appended := kept ++ [(k, v, now)]
  ⟨c.maxSize, c.ttl, appended.drop (appended.length - c.maxSize)⟩

/-- Modelled from the spec: get returns the stored value while the entry is
within its ttl, treating an expired entry as absent; it does not refresh
recency. -/
def SpecCache.get (c : SpecCache) (k : String) (now : Nat) :
    Option (List SearchResult) :=
  match c.entries.find? (fun e => e.1 = k) with
  | some e => if now < e.2.2 + c.ttl then some e.2.1 else none
  | none => none

/-- Modelled from the spec: has mirrors get without refreshing recency. -/
def SpecCache.has (c : SpecCache) (k : String) (now : Nat) : Bool :=
  (c.get k now).isSome

/-- The keys currently stored, in insertion order. -/
def SpecCache.keys (c : SpecCache) : List String :=
  c.entries.map (fun e => e.1)

/-- A cache operation of the claim scenario: an insertion or a read. -/
inductive CacheOp where
  | set (k : String) (v : List SearchResult)
  | get (k : String)
  | has (k : String)
deriving Repr

/-- The key of an insertion operation. -/
def CacheOp.setKey : CacheOp → Option String
  | .set k _ => some k
  | _ => none

/-- Runs a list of cache operations at a fixed time: reads leave the store
untouched (reads do not refresh recency and expiry is checked lazily
without reordering). -/
def runOps (now : Nat) : List CacheOp → SpecCache → SpecCache
  | [], c => c
  | .set k v :: rest, c => runOps now rest (c.set k v now)
  | .get _ :: rest, c => runOps now rest c
  | .has _ :: rest, c => runOps now rest c

/-- The options object of src/index.js search. Each field records whether
the caller passed the property, since JavaScript distinguishes an absent
property from a present falsy one: generateCacheKey reads options.max and
options.useInstantApi with the or-operator from the raw object, while the
function body destructures them with defaults. -/
structure SearchOptions where
  max : Option Nat := none
  cacheTTL : Option Nat := none
  cacheSize : Option Nat := none
  userAgent : Option String := none
  rateLimit : Option Nat := none
  useInstantApi : Option Bool := none
  useCache : Option Bool := none
deriving DecidableEq, Repr

/-- src/index.js generateCacheKey: the string search:<query>:<JSON>, where
the JSON serializes the relevant options object with max falling back to
10 whenever options.max is absent or zero (the JavaScript or-operator on a
number) and useInstantApi to false when absent. -/
def generateCacheKey (query : String) (options : SearchOptions) : String :=
  let maxVal : Nat :=
    match options.max with
    | some n => if n = 0 then 10 else n
    | none => 10
  let uia : Bool :=
    match options.useInstantApi with
    | some b => b
    | none => false
  "search:" ++ query ++ ":\x7b\"max\":" ++ Nat.repr maxVal ++
    ",\"useInstantApi\":" ++ (if uia then "true" else "false") ++ "\x7d"

/-- The module state of src/index.js: the lazily initialized global
defaultCache (null until the first caching call creates it, with that
call's cacheSize and cacheTTL) together with the per-host rate-limit
trackers of the required fetcher module. -/
structure IndexState where
  defaultCache : Option SpecCache := none
  rl : RLState := ⟨[]⟩
deriving DecidableEq, Repr

/-- The cache instance a search call works with: when caching is on and
the global is still null, the freshly created default cache, otherwise the
current global (whose size and ttl were fixed by whichever call created
it). -/
def effectiveCache (options : SearchOptions) (st : IndexState) : Option SpecCache :=
  if (options.useCache).getD true && st.defaultCache.isNone then
    some (SpecCache.empty ((options.cacheSize).getD 100) ((options.cacheTTL).getD 300000))
  else st.defaultCache

/-- The options object src/index.js search passes to searchDuckDuckGoHtml:
the destructured userAgent and rateLimit, with checkRobots forced true;
timeout is not passed, so the fetcher default applies. -/
def searchFetchOpts (options : SearchOptions) : SearchFetchOptions :=
  { userAgent := (options.userAgent).getD
      "quackfetch/0.1 (+https://github.com/your-repo/quackfetch)",
    rateLimitMs := (options.rateLimit).getD 1000,
    checkRobots := true }

/-- src/index.js search (the second document of src/.eslintrc.js).
Validates the query (the typeof test concerns non-string arguments, which
this String embedding does not represent); lazily creates the global
cache; on a cache hit for generateCacheKey returns the stored results
copied with cached true and performs no fetch; otherwise delegates to
searchDuckDuckGoHtml with checkRobots forced true, parses the returned
html (loadHtml stands for the external cheerio load; the parser treats an
empty html string as falsy), stores a non-empty result list at the
post-fetch time, and wraps any fetch error as Search failed for query.
retrievedAt is the ISO timestamp the parser's Date constructor would
produce and now the millisecond clock of the cache operations. -/
def search (query : String) (options : SearchOptions) (robotsTxt : Option String)
    (oracle : Nat → AttemptOutcome) (dur : Nat → Nat) (loadHtml : String → HtmlDoc)
    (retrievedAt : String) (now : Nat) (st : IndexState) :
    IndexState × List FetchEvent × Except JsError (List SearchResult) :=
  if jsTrim query = "" then
    (st, [], .error ⟨"Error", "Query must be a non-empty string"⟩)
  else
    let max := (options.max).getD 10
    let useCache := (options.useCache).getD true
    let cache0 := effectiveCache options st
    let cacheKey := generateCacheKey query options
    let hit : Option (List SearchResult) :=
      if useCache then
        match cache0 with
        | some c => if c.has cacheKey now then c.get cacheKey now else none
        | none => none
      else none
    match hit with
    | some cachedResults =>
      (⟨cache0, st.rl⟩, [],
        .ok (cachedResults.map (fun r => { r with cached := some true })))
    | none =>
      let fetched := searchDuckDuckGoHtml query (searchFetchOpts options)
        robotsTxt oracle dur st.rl now
      match fetched.2.2.2 with
      | .error e =>
        (⟨cache0, fetched.1⟩, fetched.2.2.1,
          .error ⟨"Error", "Search failed for query \"" ++ query ++ "\": " ++ e.message⟩)
      | .ok html =>
        let results := parseSearchHtml
          (if html = "" then none else some (loadHtml html)) max retrievedAt
        let cache1 : Option SpecCache :=
          if useCache then
            if 0 < results.length then
              cache0.map (fun c => c.set cacheKey results fetched.2.1)
            else cache0
          else cache0
        (⟨cache1, fetched.1⟩, fetched.2.2.1, .ok results)

/-- Does the primary loop emit a result for this container: title or
decoded url non-empty. -/
def primEmittable (el : RawResult) : Bool :=
  jsTrim el.linkText ≠ "" || decodeRedirectUrl (el.linkHref.getD "") ≠ ""

/-- Does the fallback loop emit a result for this container. -/
def fallEmittable (el : RawFallback) : Bool :=
  jsTrim el.linkText ≠ "" || el.linkHref.getD "" ≠ ""

end Quackfetch

namespace Quackfetch

/-- The rules of the last applicable record in a record list (the record
form of lastApplicableRules). -/
def recRules (userAgent : String) (rs : List RobotsRecord) : List String × List String :=
  match (rs.filter (applicableRecord userAgent)).getLast? with
  | some r => rulesOfBody r.body
  | none => ([], [])

/-- Invariant tying the accumulator of the record grouping to the fold
state of the line scan: inside an applicable record the head of the
reversed accumulator is that record and its body rules are the gathered
rules; outside, the gathered rules are those of the last applicable record
so far and the most recent record, if any, is not applicable. -/
def recInv (userAgent : String) (acc : List RobotsRecord) (st : RobotsState) : Prop :=
  match st.cur with
  | some _ => ∃ r rs, acc = r :: rs ∧ applicableRecord userAgent r = true ∧
      rulesOfBody r.body = (st.dis, st.alw)
  | none => (acc = [] ∨ ∃ r rs, acc = r :: rs ∧ applicableRecord userAgent r = false) ∧
      recRules userAgent acc.reverse = (st.dis, st.alw)

/-- A retryable attempt failure in the sense of the retry loop: not a
success, not an abort, and its message does not contain robots.txt (the two
conditions under which the loop rethrows instead of retrying). -/
def isRetryableFailure (o : AttemptOutcome) : Prop :=
  (match o with | .success _ => False | _ => True) ∧
  (outcomeError o).name ≠ "AbortError" ∧
  jsIncludes (outcomeError o).message "robots.txt" = false

/-- The robots.txt gate of fetchHtml lets the request through: robots
checking disabled, no robots.txt retrieved, or the checker allows the
path. -/
def robotsPasses (opts : FetchOptions) (robotsTxt : Option String) (u : URLRec) : Prop :=
  opts.checkRobots = false ∨ robotsTxt = none ∨
  ∃ txt, robotsTxt = some txt ∧
    checkRobotsTxt (some txt) opts.userAgent (u.pathname ++ urlSearch u) = true

/-- The recorded lastRequest timestamp of a host, if tracked. -/
def rlLastRequest (st : RLState) (host : String) : Option Nat :=
  (st.map.find? (fun p => p.1 = host)).map (fun p => p.2.1)

/-- The encoding the specification describes in claim C7, written from its
words rather than from the code: the query percent-encoded as a
query-string value with each space character becoming a plus sign, as in
application/x-www-form-urlencoded; every other character is encoded as
encodeURIComponent encodes it. It is compared against the encoder the code
uses. -/
def specQueryValueEncodingL : List Char → List Char
  | [] => []
  | c :: rest =>
    (if c = ' ' then ['+'] else encodeURIComponentL [c]) ++ specQueryValueEncodingL rest

/-- String form of the specification-side query-value encoding. -/
def specQueryValueEncoding (s : String) : String :=
  String.mk (specQueryValueEncodingL s.data)

theorem stripPre?_length {p l r : List Char} (h : stripPre? p l = some r) :
    r.length + p.length = l.length := by
  induction p generalizing l with
  | nil => simp [stripPre?] at h; simp [h]
  | cons p ps ih =>
    cases l with
    | nil => simp [stripPre?] at h
    | cons c cs =>
      simp only [stripPre?] at h
      split at h
      · have := ih h
        simp [List.length_cons]
        omega
      · exact absurd h (by simp)

theorem jsEndsWith_slash_iff (x : String) :
    jsEndsWith x "/" = true ↔ x.data.getLast? = some '/' := by
  have hrev : ("/" : String).data.reverse = ['/'] := by decide
  unfold jsEndsWith startsWithL
  rw [hrev]
  cases hx : x.data.reverse with
  | nil =>
    simp [stripPre?]
    intro h
    rw [← List.head?_reverse, hx] at h
    simp at h
  | cons c cs =>
    simp only [stripPre?]
    rw [← List.head?_reverse, hx]
    by_cases hc : '/' = c
    · subst hc
      simp [stripPre?]
    · simp [stripPre?, hc]
      intro h
      exact hc h.symm

/-- C9: counterexample to the claim as stated. The URL
https://example.com/b/?x=1 parses with path /b/ ending in a slash, yet
normalizeUrl returns it unchanged with the slash kept, because the code
tests whether the serialized URL ends with a slash and here it ends with
the query. -/
theorem C9_counterexample :
    parseURL "https://example.com/b/?x=1" =
      some ⟨"https", "example.com", "/b/", some "x=1", none⟩ ∧
    jsEndsWith "/b/" "/" = true ∧ ("/b/" : String) ≠ "/" ∧
    normalizeUrl (.str "https://example.com/b/?x=1") = "https://example.com/b/?x=1" ∧
    (parseURL (normalizeUrl (.str "https://example.com/b/?x=1"))).map URLRec.pathname =
      some "/b/" := by
  refine ⟨by decide, by decide, by decide, by decide, by decide⟩

theorem take_append_sub_one (A B : List Char) (h : B ≠ []) :
    (A ++ B).take ((A ++ B).length - 1) = A ++ B.take (B.length - 1) := by
  have hB : 1 ≤ B.length := by
    cases B with
    | nil => exact absurd rfl h
    | cons b bs => simp
  have hlen : (A ++ B).length - 1 = A.length + (B.length - 1) := by
    rw [List.length_append]
    omega
  rw [hlen, List.take_append]

/-- C9: corrected. When the parsed path ends with a slash and is not the
root, and nothing follows it in the serialized URL (no query survives the
tracking-parameter removal and there is no fragment), normalizeUrl strips
exactly one trailing slash from the path. -/
theorem C9_amended (s : String) (u : URLRec) (hp : parseURL s = some u)
    (hslash : jsEndsWith u.pathname "/" = true) (hroot : u.pathname ≠ "/")
    (hq : ((formParse (u.query.getD "")).filter
      (fun p => !trackingParams.contains p.1)).isEmpty = true)
    (hf : u.fragment = none) :
    normalizeUrl (.str s) = u.scheme ++ "://" ++ u.host ++ jsDropRight u.pathname 1 := by
  have hs : s ≠ "" := by
    intro h
    subst h
    simp [parseURL, jsTrim, breakOnSeq] at hp
  have hlast : u.pathname.data.getLast? = some '/' := (jsEndsWith_slash_iff _).mp hslash
  have hpne : u.pathname.data ≠ [] := by
    intro h
    rw [h] at hlast
    simp at hlast
  have hdata : (u.scheme ++ "://" ++ u.host ++ u.pathname).data =
      (u.scheme ++ "://" ++ u.host).data ++ u.pathname.data := String.data_append _ _
  have hnorm : urlToString { u with query := none } =
      u.scheme ++ "://" ++ u.host ++ u.pathname := by
    simp [urlToString, hf]
  have hends : jsEndsWith (u.scheme ++ "://" ++ u.host ++ u.pathname) "/" = true := by
    rw [jsEndsWith_slash_iff, hdata, List.getLast?_append_of_ne_nil _ hpne]
    exact hlast
  have hstrip : jsDropRight (u.scheme ++ "://" ++ u.host ++ u.pathname) 1 =
      u.scheme ++ "://" ++ u.host ++ jsDropRight u.pathname 1 := by
    apply String.ext
    simp only [jsDropRight, hdata, String.data_append]
    exact take_append_sub_one _ _ hpne
  simp only [normalizeUrl, if_neg hs, hp, hq, if_true]
  rw [hnorm]
  split
  · exact hstrip
  · rename_i hcond
    exact absurd (by simp [hends, hroot]) hcond

/-- C9: witness. The amended theorem applied at https://example.com/b/
strips the trailing slash. -/
theorem C9_witness :
    normalizeUrl (.str "https://example.com/b/") = "https://example.com/b" := by
  have h := C9_amended "https://example.com/b/" ⟨"https", "example.com", "/b/", none, none⟩
    (by decide) (by decide) (by decide) (by decide) (by decide)
  rw [h]
  decide


/-- C10: counterexample to the claim as stated. https://example.com/a
parses successfully and is still returned unchanged because it is already
in normalized form, so parse failure is not the only way an input comes
back unchanged. -/
theorem C10_counterexample :
    normalizeUrl (.str "https://example.com/a") = "https://example.com/a" ∧
    (parseURL "https://example.com/a").isSome = true := by
  constructor
  · rfl
  · rfl

/-- C10: corrected. normalizeUrl returns the empty string, without
raising, for null, undefined, boolean, numeric and empty-string inputs,
and returns every non-empty string that fails URL parsing unchanged. -/
theorem C10_theorem :
    (normalizeUrl .nullV = "") ∧ (normalizeUrl .undefinedV = "") ∧
    (∀ b, normalizeUrl (.boolV b) = "") ∧ (∀ n, normalizeUrl (.numV n) = "") ∧
    (normalizeUrl (.str "") = "") ∧
    (∀ s, s ≠ "" → parseURL s = none → normalizeUrl (.str s) = s) := by
  refine ⟨rfl, rfl, fun b => rfl, fun n => rfl, rfl, ?_⟩
  intro s hs hp
  simp only [normalizeUrl, if_neg hs, hp]

/-- C10: witness. The theorem applied at the unparseable input returns
it unchanged. -/
theorem C10_witness :
    normalizeUrl (.str "not a url") = "not a url" := by
  have h := C10_theorem
  exact h.2.2.2.2.2 "not a url" (by decide) (by rfl)


theorem stripPre?_eq_some_iff {p l r : List Char} :
    stripPre? p l = some r ↔ l = p ++ r := by
  induction p generalizing l with
  | nil => simp only [stripPre?, Option.some.injEq, List.nil_append]
  | cons p ps ih =>
    cases l with
    | nil => simp [stripPre?]
    | cons c cs =>
      simp only [stripPre?]
      by_cases hc : p = c
      · subst hc
        rw [if_pos rfl, ih]
        simp
      · rw [if_neg hc]
        apply iff_of_false (by simp)
        intro h
        injection h with h1 h2
        exact hc h1.symm

theorem startsWithL_iff {l p : List Char} :
    startsWithL l p = true ↔ p <+: l := by
  unfold startsWithL
  cases h : stripPre? p l with
  | none =>
    apply iff_of_false (by simp)
    intro hpre
    obtain ⟨r, hr⟩ := hpre
    have := stripPre?_eq_some_iff (p := p) (l := l) (r := r)
    rw [h] at this
    simp at this
    exact this hr.symm
  | some r =>
    simp
    exact ⟨r, (stripPre?_eq_some_iff.mp h).symm⟩

theorem jsStartsWith_iff {s pre : String} :
    jsStartsWith s pre = true ↔ pre.data <+: s.data := by
  unfold jsStartsWith
  exact startsWithL_iff

theorem jsEndsWith_one_iff (x : String) (c : Char) (s : String) (hs : s.data = [c]) :
    jsEndsWith x s = true ↔ x.data.getLast? = some c := by
  unfold jsEndsWith startsWithL
  rw [hs]
  cases hx : x.data.reverse with
  | nil =>
    simp [stripPre?]
    intro h
    rw [← List.head?_reverse, hx] at h
    simp at h
  | cons d ds =>
    simp only [List.reverse_cons, List.reverse_nil, List.nil_append, stripPre?]
    rw [← List.head?_reverse, hx]
    by_cases hc : c = d
    · subst hc
      simp [stripPre?]
    · simp [stripPre?, hc]
      intro h
      exact hc h.symm

theorem pathMatchesRule_iff (path rule : String) (hp : path ≠ "") (hr : rule ≠ "") :
    pathMatchesRule path rule = true ↔ specRuleMatch path rule := by
  unfold pathMatchesRule specRuleMatch
  rw [if_neg (by simp [hp, hr])]
  by_cases heq : path = rule
  · rw [if_pos heq]
    simp [heq]
  · rw [if_neg heq]
    by_cases hstar : jsEndsWith rule "*" = true
    · rw [if_pos hstar]
      have hlast : rule.data.getLast? = some '*' :=
        (jsEndsWith_one_iff rule '*' "*" (by decide)).mp hstar
      have hdrop : (jsDropRight rule 1).data = rule.data.dropLast := by
        simp [jsDropRight, List.dropLast_eq_take]
      rw [jsStartsWith_iff, hdrop]
      constructor
      · intro h
        exact Or.inr (Or.inr ⟨hlast, h⟩)
      · rintro (h | h | ⟨_, h⟩)
        · exact absurd h heq
        · exact (List.dropLast_prefix rule.data).trans h
        · exact h
    · rw [if_neg hstar, jsStartsWith_iff]
      constructor
      · intro h
        exact Or.inr (Or.inl h)
      · rintro (h | h | ⟨hlast, h⟩)
        · exact absurd h heq
        · exact h
        · exact absurd ((jsEndsWith_one_iff rule '*' "*" (by decide)).mpr hlast) hstar

theorem robotsFinal_false_iff (path : String) (alw dis : List String) :
    robotsFinal path alw dis = false ↔
      (dis.any (fun r => pathMatchesRule path r) = true ∧
       alw.any (fun a => pathMatchesRule path a) = false) := by
  induction dis with
  | nil => simp [robotsFinal]
  | cons r rest ih =>
    by_cases hm : pathMatchesRule path r = true <;>
      by_cases ha : alw.any (fun a => pathMatchesRule path a) = true <;>
        simp [robotsFinal, hm, ha, ih]

theorem recRules_concat (ua : String) (xs : List RobotsRecord) (r : RobotsRecord) :
    recRules ua (xs ++ [r]) =
      if applicableRecord ua r then rulesOfBody r.body else recRules ua xs := by
  unfold recRules
  rw [List.filter_append]
  by_cases h : applicableRecord ua r = true
  · simp [h, List.getLast?_concat]
  · simp [h]

theorem rulesOfBody_concat (body : List String) (line : String) :
    rulesOfBody (body ++ [line]) = ruleStep (rulesOfBody body) line := by
  unfold rulesOfBody
  exact List.foldl_concat ruleStep ([], []) line body

theorem recordsGo_foldl (ua : String) :
    ∀ (lines : List String) (acc : List RobotsRecord) (st : RobotsState),
      recInv ua acc st →
      recRules ua (recordsGo acc lines) =
        ((lines.foldl (robotsStep ua) st).dis, (lines.foldl (robotsStep ua) st).alw) := by
  intro lines
  induction lines with
  | nil =>
    intro acc st hinv
    simp only [recordsGo, List.foldl_nil]
    unfold recInv at hinv
    cases hcur : st.cur with
    | some a =>
      rw [hcur] at hinv
      obtain ⟨r, rs, hacc, happ, hrules⟩ := hinv
      subst hacc
      simp only [List.reverse_cons]
      rw [recRules_concat, if_pos happ]
      exact hrules
    | none =>
      rw [hcur] at hinv
      exact hinv.2
  | cons line rest ih =>
    intro acc st hinv
    simp only [recordsGo, List.foldl_cons]
    by_cases hua : jsStartsWith (jsToLower line) "user-agent:" = true
    · rw [if_pos hua]
      by_cases happ : (jsTrim (jsDrop line 11) = "*" ||
          jsIncludes ua (jsTrim (jsDrop line 11))) = true
      · have hstep : robotsStep ua st line =
            ⟨some (jsTrim (jsDrop line 11)), [], []⟩ := by
          simp only [robotsStep]
          rw [if_pos hua, if_pos happ]
        rw [hstep]
        apply ih
        exact ⟨⟨jsTrim (jsDrop line 11), []⟩, acc, rfl, happ, rfl⟩
      · have happF : applicableRecord ua ⟨jsTrim (jsDrop line 11), []⟩ = false := by
          unfold applicableRecord
          exact Bool.eq_false_iff.mpr happ
        have hstep : robotsStep ua st line = ⟨none, st.dis, st.alw⟩ := by
          simp only [robotsStep]
          rw [if_pos hua, if_neg happ]
        rw [hstep]
        apply ih
        refine ⟨Or.inr ⟨⟨jsTrim (jsDrop line 11), []⟩, acc, rfl, happF⟩, ?_⟩
        simp only [List.reverse_cons]
        rw [recRules_concat, if_neg (by simp [happF])]
        unfold recInv at hinv
        cases hcur : st.cur with
        | some a =>
          rw [hcur] at hinv
          obtain ⟨r, rs, hacc, happ2, hrules⟩ := hinv
          subst hacc
          simp only [List.reverse_cons]
          rw [recRules_concat, if_pos happ2]
          exact hrules
        | none =>
          rw [hcur] at hinv
          exact hinv.2
    · rw [if_neg hua]
      unfold recInv at hinv
      cases hcur : st.cur with
      | some a =>
        rw [hcur] at hinv
        obtain ⟨r, rs, hacc, happ, hrules⟩ := hinv
        subst hacc
        have hstep : robotsStep ua st line =
            ⟨some a, (ruleStep (st.dis, st.alw) line).1,
              (ruleStep (st.dis, st.alw) line).2⟩ := by
          simp only [robotsStep]
          rw [if_neg hua, hcur]
        rw [hstep]
        apply ih
        refine ⟨{ r with body := r.body ++ [line] }, rs, rfl, happ, ?_⟩
        rw [rulesOfBody_concat, hrules]
      | none =>
        have hstep : robotsStep ua st line = st := by
          simp only [robotsStep]
          rw [if_neg hua, hcur]
        rw [hstep]
        rw [hcur] at hinv
        obtain ⟨hshape, hrules⟩ := hinv
        rcases hshape with hnil | ⟨r, rs, hacc, happ⟩
        · subst hnil
          apply ih
          unfold recInv
          rw [hcur]
          exact ⟨Or.inl rfl, hrules⟩
        · subst hacc
          have happ2 : applicableRecord ua { r with body := r.body ++ [line] } = false := happ
          apply ih
          unfold recInv
          rw [hcur]
          refine ⟨Or.inr ⟨{ r with body := r.body ++ [line] }, rs, rfl, happ2⟩, ?_⟩
          simp only [List.reverse_cons] at hrules ⊢
          rw [recRules_concat, if_neg (by simp [happ2])]
          rw [recRules_concat, if_neg (by simp [happ])] at hrules
          exact hrules

theorem robotsCollect_eq (txt ua : String) :
    ((robotsCollect txt ua).dis, (robotsCollect txt ua).alw) = lastApplicableRules txt ua := by
  have h := recordsGo_foldl ua ((jsSplit txt "\n").map jsTrim) [] ⟨none, [], []⟩
    ⟨Or.inl rfl, rfl⟩
  exact h.symm

theorem ruleStep_ne {p : List String × List String} (line : String)
    (h1 : ∀ r ∈ p.1, r ≠ "") (h2 : ∀ r ∈ p.2, r ≠ "") :
    (∀ r ∈ (ruleStep p line).1, r ≠ "") ∧ (∀ r ∈ (ruleStep p line).2, r ≠ "") := by
  unfold ruleStep
  by_cases hd : jsStartsWith (jsToLower line) "disallow:" = true
  · rw [if_pos hd]
    by_cases hr : jsTrim (jsDrop line 9) ≠ ""
    · rw [if_pos hr]
      refine ⟨?_, h2⟩
      intro r hm
      rcases List.mem_append.mp hm with h | h
      · exact h1 r h
      · simp at h
        subst h
        exact hr
    · rw [if_neg hr]
      exact ⟨by simp, h2⟩
  · rw [if_neg hd]
    by_cases ha : jsStartsWith (jsToLower line) "allow:" = true
    · rw [if_pos ha]
      by_cases hr : jsTrim (jsDrop line 6) ≠ ""
      · rw [if_pos hr]
        refine ⟨h1, ?_⟩
        intro r hm
        rcases List.mem_append.mp hm with h | h
        · exact h2 r h
        · simp at h
          subst h
          exact hr
      · rw [if_neg hr]
        exact ⟨h1, h2⟩
    · rw [if_neg ha]
      exact ⟨h1, h2⟩

theorem foldl_ruleStep_ne (body : List String) :
    ∀ (init : List String × List String),
      (∀ r ∈ init.1, r ≠ "") → (∀ r ∈ init.2, r ≠ "") →
      (∀ r ∈ (body.foldl ruleStep init).1, r ≠ "") ∧
      (∀ r ∈ (body.foldl ruleStep init).2, r ≠ "") := by
  induction body with
  | nil =>
    intro init h1 h2
    exact ⟨h1, h2⟩
  | cons line rest ih =>
    intro init h1 h2
    rw [List.foldl_cons]
    have h := ruleStep_ne (p := init) line h1 h2
    exact ih _ h.1 h.2

theorem lastApplicableRules_ne (txt ua : String) :
    (∀ r ∈ (lastApplicableRules txt ua).1, r ≠ "") ∧
    (∀ r ∈ (lastApplicableRules txt ua).2, r ≠ "") := by
  unfold lastApplicableRules
  cases h : ((robotsRecords txt).filter (applicableRecord ua)).getLast? with
  | none => simp
  | some r =>
    unfold rulesOfBody
    exact foldl_ruleStep_ne r.body ([], []) (by simp) (by simp)

theorem pathMatchesRule_empty_path (r : String) : pathMatchesRule "" r = false := by
  simp [pathMatchesRule]

theorem robotsFinal_empty_path (alw dis : List String) : robotsFinal "" alw dis = true := by
  induction dis with
  | nil => rfl
  | cons r rest ih =>
    simp [robotsFinal, pathMatchesRule_empty_path, ih]

/-- C5: corrected. Missing or empty robots.txt content always allows,
and the empty path is always allowed because the matcher rejects it
outright; for a non-empty path, access is denied exactly when some
disallow rule of the last applicable record matches the path (exactly, by
prefix, or by wildcard-suffix prefix) and no allow rule of that record
matches it. -/
theorem C5_amended (txt ua path : String) (hp : path ≠ "") :
    checkRobotsTxt none ua path = true ∧
    checkRobotsTxt (some "") ua path = true ∧
    (∀ t u, checkRobotsTxt (some t) u "" = true) ∧
    (checkRobotsTxt (some txt) ua path = false ↔
      ((∃ r ∈ (lastApplicableRules txt ua).1, specRuleMatch path r) ∧
       ∀ a ∈ (lastApplicableRules txt ua).2, ¬ specRuleMatch path a)) := by
  refine ⟨rfl, rfl, ?_, ?_⟩
  · intro t u
    simp only [checkRobotsTxt]
    by_cases ht : t = ""
    · rw [if_pos ht]
    · rw [if_neg ht]
      exact robotsFinal_empty_path _ _
  · by_cases ht : txt = ""
    · subst ht
      constructor
      · intro h
        simp [checkRobotsTxt] at h
      · rintro ⟨⟨r, hr, _⟩, _⟩
        have hz : lastApplicableRules "" ua = ([], []) := rfl
        rw [hz] at hr
        simp at hr
    · simp only [checkRobotsTxt]
      rw [if_neg ht, robotsFinal_false_iff]
      have hc := robotsCollect_eq txt ua
      have hdis : (robotsCollect txt ua).dis = (lastApplicableRules txt ua).1 :=
        congrArg Prod.fst hc
      have halw : (robotsCollect txt ua).alw = (lastApplicableRules txt ua).2 :=
        congrArg Prod.snd hc
      rw [hdis, halw]
      have hne := lastApplicableRules_ne txt ua
      constructor
      · rintro ⟨hany, hnone⟩
        refine ⟨?_, ?_⟩
        · obtain ⟨r, hr, hm⟩ := List.any_eq_true.mp hany
          exact ⟨r, hr, (pathMatchesRule_iff path r hp (hne.1 r hr)).mp hm⟩
        · intro a ha hspec
          have hx : (lastApplicableRules txt ua).2.any
              (fun a => pathMatchesRule path a) = true :=
            List.any_eq_true.mpr ⟨a, ha, (pathMatchesRule_iff path a hp (hne.2 a ha)).mpr hspec⟩
          rw [hx] at hnone
          exact absurd hnone (by simp)
      · rintro ⟨⟨r, hr, hm⟩, hall⟩
        refine ⟨List.any_eq_true.mpr
          ⟨r, hr, (pathMatchesRule_iff path r hp (hne.1 r hr)).mpr hm⟩, ?_⟩
        cases hb : (lastApplicableRules txt ua).2.any (fun a => pathMatchesRule path a) with
        | false => rfl
        | true =>
          obtain ⟨a, ha, hm2⟩ := List.any_eq_true.mp hb
          exact absurd ((pathMatchesRule_iff path a hp (hne.2 a ha)).mp hm2) (hall a ha)

/-- C5: counterexample to the claim as stated. For the empty path and a
wildcard disallow rule the rule matches under the claim's prefix relation,
yet the checker allows access, because pathMatchesRule returns false for
every empty path. -/
theorem C5_counterexample :
    checkRobotsTxt (some "User-agent: *\nDisallow: *") "anybot" "" = true ∧
    lastApplicableRules "User-agent: *\nDisallow: *" "anybot" = (["*"], []) ∧
    specRuleMatch "" "*" := by
  refine ⟨by decide, by decide, by decide⟩

/-- C5: witness. The amended theorem applied at a concrete robots.txt
denies /private/x: the disallow rule matches and the allow rule does
not. -/
theorem C5_witness :
    checkRobotsTxt (some "User-agent: *\nDisallow: /private\nAllow: /private/ok")
      "mybot" "/private/x" = false := by
  have h := C5_amended "User-agent: *\nDisallow: /private\nAllow: /private/ok"
    "mybot" "/private/x" (by decide)
  exact h.2.2.2.mpr (by decide)


theorem boundedLoop_invariants {α : Type} (emit : List SearchResult → α → List SearchResult)
    (hshape : ∀ acc el, emit acc el = acc ∨
      ∃ r, r.rank = acc.length + 1 ∧ r.title ≠ "" ∧ emit acc el = acc ++ [r])
    (maxResults : Nat) :
    ∀ (els : List α) (acc : List SearchResult),
      ((∀ i (hi : i < acc.length), (acc.get ⟨i, hi⟩).rank = i + 1) ∧
       (∀ r ∈ acc, r.title ≠ "")) →
      ((∀ i (hi : i < (boundedLoop emit maxResults els acc).length),
          ((boundedLoop emit maxResults els acc).get ⟨i, hi⟩).rank = i + 1) ∧
       (∀ r ∈ boundedLoop emit maxResults els acc, r.title ≠ "")) := by
  intro els
  induction els with
  | nil =>
    intro acc h
    simpa [boundedLoop] using h
  | cons el rest ih =>
    intro acc h
    by_cases hge : acc.length ≥ maxResults
    · rw [show boundedLoop emit maxResults (el :: rest) acc = acc from by
        simp [boundedLoop, hge]]
      exact h
    · rw [show boundedLoop emit maxResults (el :: rest) acc =
          boundedLoop emit maxResults rest (emit acc el) from by
        simp [boundedLoop, hge]]
      apply ih
      rcases hshape acc el with he | ⟨r, hrank, htitle, he⟩
      · rw [he]
        exact h
      · rw [he]
        constructor
        · intro i hi
          rw [List.get_eq_getElem]
          rcases Nat.lt_or_ge i acc.length with h1 | h1
          · rw [List.getElem_append_left h1]
            have := h.1 i h1
            rw [List.get_eq_getElem] at this
            exact this
          · have hlen : i = acc.length := by
              have h2 : i < acc.length + 1 := by simpa using hi
              omega
            subst hlen
            rw [List.getElem_concat_length acc r acc.length rfl]
            rw [hrank]
        · intro x hx
          rcases List.mem_append.mp hx with hx | hx
          · exact h.2 x hx
          · simp at hx
            subst hx
            exact htitle

theorem boundedLoop_length {α : Type} (emit : List SearchResult → α → List SearchResult)
    (cond : α → Bool)
    (hlen : ∀ acc el, (emit acc el).length =
      acc.length + (if cond el = true then 1 else 0))
    (maxResults : Nat) :
    ∀ (els : List α) (acc : List SearchResult), acc.length ≤ maxResults →
      (boundedLoop emit maxResults els acc).length =
        min maxResults (acc.length + (els.filter cond).length) := by
  intro els
  induction els with
  | nil =>
    intro acc h
    simp only [boundedLoop, List.filter_nil, List.length_nil, Nat.add_zero]
    omega
  | cons el rest ih =>
    intro acc hle
    simp only [boundedLoop]
    split
    · rename_i hge
      have heq : acc.length = maxResults := Nat.le_antisymm hle hge
      rw [heq]
      have : (List.filter cond (el :: rest)).length ≥ 0 := Nat.zero_le _
      omega
    · rename_i hlt
      have hlt2 : acc.length < maxResults := Nat.lt_of_not_le hlt
      rw [ih (emit acc el) (by rw [hlen]; split <;> omega)]
      rw [hlen]
      by_cases hc : cond el = true
      · rw [if_pos hc, List.filter_cons_of_pos hc]
        simp only [List.length_cons]
        omega
      · rw [if_neg hc, List.filter_cons_of_neg (by simpa using hc)]
        omega


theorem emitPrimary_shape (now : String) (acc : List SearchResult) (el : RawResult) :
    emitPrimary now acc el = acc ∨
    ∃ r, r.rank = acc.length + 1 ∧ r.title ≠ "" ∧ emitPrimary now acc el = acc ++ [r] := by
  simp only [emitPrimary]
  split
  · refine Or.inr ⟨_, rfl, ?_, rfl⟩
    dsimp only
    split
    · rename_i ht
      exact ht
    · decide
  · exact Or.inl rfl

theorem emitFallback_shape (now : String) (acc : List SearchResult) (el : RawFallback) :
    emitFallback now acc el = acc ∨
    ∃ r, r.rank = acc.length + 1 ∧ r.title ≠ "" ∧ emitFallback now acc el = acc ++ [r] := by
  simp only [emitFallback]
  split
  · refine Or.inr ⟨_, rfl, ?_, rfl⟩
    dsimp only
    split
    · rename_i ht
      exact ht
    · decide
  · exact Or.inl rfl

theorem emitPrimary_length (now : String) (acc : List SearchResult) (el : RawResult) :
    (emitPrimary now acc el).length =
      acc.length + (if primEmittable el = true then 1 else 0) := by
  simp only [emitPrimary, primEmittable]
  split
  · simp
  · simp

theorem emitFallback_length (now : String) (acc : List SearchResult) (el : RawFallback) :
    (emitFallback now acc el).length =
      acc.length + (if fallEmittable el = true then 1 else 0) := by
  simp only [emitFallback, fallEmittable]
  split
  · simp
  · simp

theorem parseSearchHtml_some (d : HtmlDoc) (m : Nat) (now : String) :
    parseSearchHtml (some d) m now =
      if (boundedLoop (emitPrimary now) m d.primaryEls []).length = 0
      then boundedLoop (emitFallback now) m d.fallbackEls []
      else boundedLoop (emitPrimary now) m d.primaryEls [] := rfl


/-- C6: parseSearchHtml assigns ranks one to k in order with no gaps or
duplicates, every returned title is non-empty thanks to the Untitled
fallback, and when the document holds more emittable blocks than
maxResults exactly maxResults results are returned, for the primary
selector and for the fallback strategy alike. -/
theorem C6_theorem (doc : Option HtmlDoc) (maxResults : Nat) (now : String) :
    (∀ i (hi : i < (parseSearchHtml doc maxResults now).length),
        ((parseSearchHtml doc maxResults now).get ⟨i, hi⟩).rank = i + 1) ∧
    (∀ r ∈ parseSearchHtml doc maxResults now, r.title ≠ "") ∧
    (∀ d, doc = some d →
        maxResults < (d.primaryEls.filter primEmittable).length →
        (parseSearchHtml doc maxResults now).length = maxResults) ∧
    (∀ d, doc = some d → (d.primaryEls.filter primEmittable).length = 0 →
        maxResults < (d.fallbackEls.filter fallEmittable).length →
        (parseSearchHtml doc maxResults now).length = maxResults) := by
  cases doc with
  | none =>
    refine ⟨?_, ?_, ?_, ?_⟩
    · intro i hi
      simp [parseSearchHtml] at hi
    · intro r hr
      simp [parseSearchHtml] at hr
    · intro d hd
      exact absurd hd (by simp)
    · intro d hd
      exact absurd hd (by simp)
  | some d =>
    have hinvP := boundedLoop_invariants (emitPrimary now) (emitPrimary_shape now)
      maxResults d.primaryEls [] ⟨by simp, by simp⟩
    have hinvF := boundedLoop_invariants (emitFallback now) (emitFallback_shape now)
      maxResults d.fallbackEls [] ⟨by simp, by simp⟩
    have hlenP := boundedLoop_length (emitPrimary now) primEmittable
      (emitPrimary_length now) maxResults d.primaryEls [] (by simp)
    have hlenF := boundedLoop_length (emitFallback now) fallEmittable
      (emitFallback_length now) maxResults d.fallbackEls [] (by simp)
    simp only [List.length_nil, Nat.zero_add] at hlenP hlenF
    rw [parseSearchHtml_some]
    by_cases hz : (boundedLoop (emitPrimary now) maxResults d.primaryEls []).length = 0
    · rw [if_pos hz]
      refine ⟨hinvF.1, hinvF.2, ?_, ?_⟩
      · intro d2 hd2 hM
        cases hd2
        rw [hlenP] at hz
        rw [hlenF]
        omega
      · intro d2 hd2 hcp hM
        cases hd2
        rw [hlenF]
        omega
    · rw [if_neg hz]
      refine ⟨hinvP.1, hinvP.2, ?_, ?_⟩
      · intro d2 hd2 hM
        cases hd2
        rw [hlenP]
        omega
      · intro d2 hd2 hcp hM
        cases hd2
        rw [hlenP] at hz
        omega

/-- C6: witness. The theorem applied at a concrete two-block document
with maxResults one returns one result ranked one with a non-empty
title. -/
theorem C6_witness :
    (parseSearchHtml
      (some ⟨[⟨"Example", some "https://example.com", "", "", ""⟩,
              ⟨"Example", some "https://example.com", "", "", ""⟩], []⟩) 1 "T").length = 1 ∧
    (parseSearchHtml
      (some ⟨[], [⟨"Example text", "Example", some "https://example.com"⟩,
                  ⟨"Example text", "Example", some "https://example.com"⟩]⟩) 1 "T").length
      = 1 := by
  constructor
  · exact (C6_theorem
      (some ⟨[⟨"Example", some "https://example.com", "", "", ""⟩,
              ⟨"Example", some "https://example.com", "", "", ""⟩], []⟩) 1 "T").2.2.1
      _ rfl (by decide)
  · exact (C6_theorem
      (some ⟨[], [⟨"Example text", "Example", some "https://example.com"⟩,
                  ⟨"Example text", "Example", some "https://example.com"⟩]⟩) 1 "T").2.2.2
      _ rfl (by decide) (by decide)


theorem emitPrimary_url (now : String) (el : RawResult) (h : primEmittable el = true) :
    (emitPrimary now [] el).map (fun r => r.url) =
      [normalizeUrl (JSValue.str (decodeRedirectUrl (el.linkHref.getD "")))] := by
  simp only [emitPrimary, primEmittable] at h ⊢
  rw [if_pos h]
  simp

/-- C8: counterexample to the claim as stated. A uddg href with a
trailing rut parameter decodes to a URL that still carries the ampersand
and parameter inside its host, not to the bare target the claim
promises. -/
theorem C8_counterexample :
    (parseSearchHtml (some ⟨[⟨"Example",
        some "/l/?uddg=https%3A%2F%2Fexample.com&rut=1234", "", "", ""⟩], []⟩) 10 "T").map
      (fun r => r.url) = ["https://example.com&rut=1234/"] ∧
    decodeURIComponent "https%3A%2F%2Fexample.com" = some "https://example.com" ∧
    (parseURL "https://example.com&rut=1234/").map URLRec.host =
      some "example.com&rut=1234" ∧
    normalizeUrl (.str "https://example.com") = "https://example.com/" ∧
    ("https://example.com&rut=1234/" : String) ≠ normalizeUrl (.str "https://example.com") := by
  refine ⟨by decide, by decide, by decide, by decide, by decide⟩

/-- C8: corrected. For an href starting with /l/?uddg= whose tail after
the first uddg= occurrence percent-decodes successfully, the emitted url
is that decoded tail, including any following ampersand parameters,
normalized; a href carrying only the uddg parameter yields a URL with
host example.com. -/
theorem C8_amended (el : RawResult) (h d : String) (maxResults : Nat) (now : String)
    (hhref : el.linkHref = some h)
    (hpre : jsStartsWith h "/l/?uddg=" = true)
    (hdec : decodeURIComponent (((jsSplit h "uddg=").drop 1).headD "") = some d)
    (hemit : jsTrim el.linkText ≠ "" ∨ d ≠ "")
    (hM : 1 ≤ maxResults) :
    (parseSearchHtml (some ⟨[el], []⟩) maxResults now).map (fun r => r.url) =
      [normalizeUrl (JSValue.str d)] ∧
    (parseSearchHtml (some ⟨[⟨"Example",
        some "/l/?uddg=https%3A%2F%2Fexample.com", "", "", ""⟩], []⟩) 10 "T").map
      (fun r => extractDomain r.url) = ["example.com"] := by
  refine ⟨?_, by decide⟩
  have hd : decodeRedirectUrl h = d := by
    simp only [decodeRedirectUrl, hpre, if_true, hdec]
  have hgd : el.linkHref.getD "" = h := by
    rw [hhref]
    rfl
  have hprim : primEmittable el = true := by
    simp only [primEmittable, hgd, hd]
    rcases hemit with ht | hu
    · simp [ht]
    · simp [hu]
  rw [parseSearchHtml_some]
  have hloop : boundedLoop (emitPrimary now) maxResults [el] [] = emitPrimary now [] el := by
    simp only [boundedLoop]
    rw [if_neg (by simp only [List.length_nil]; omega)]
  have hlen : (emitPrimary now [] el).length = 1 := by
    rw [emitPrimary_length]
    simp [hprim]
  rw [hloop, if_neg (by omega)]
  rw [emitPrimary_url now el hprim, hgd, hd]

/-- C8: witness. The amended theorem applied at a href with a single
uddg parameter yields the normalized decoded target. -/
theorem C8_witness :
    (parseSearchHtml (some ⟨[⟨"T", some "/l/?uddg=https%3A%2F%2Ftest.com", "", "", ""⟩],
      []⟩) 10 "T").map (fun r => r.url) = [normalizeUrl (.str "https://test.com")] := by
  exact (C8_amended ⟨"T", some "/l/?uddg=https%3A%2F%2Ftest.com", "", "", ""⟩
    "/l/?uddg=https%3A%2F%2Ftest.com" "https://test.com" 10 "T" rfl (by decide) (by decide)
    (Or.inr (by decide)) (by decide)).1


theorem fetchGo_zero (url : String) (retries retryDelay : Nat) (oracle : Nat → AttemptOutcome)
    (dur : Nat → Nat) (attempt time : Nat) (events : List FetchEvent) :
    fetchGo url retries retryDelay oracle dur 0 attempt time events =
      (match oracle attempt with
       | .success body => (time + dur attempt, events ++ [.request url time], .ok body)
       | o =>
         if (outcomeError o).name = "AbortError" ||
             jsIncludes (outcomeError o).message "robots.txt" then
           (time + dur attempt, events ++ [.request url time], .error (outcomeError o))
         else
           (time + dur attempt, events ++ [.request url time],
             .error ⟨"Error", "Failed to fetch " ++ url ++ " after " ++
               Nat.repr (retries + 1) ++ " attempts: " ++ (outcomeError o).message⟩)) := by
  rw [fetchGo.eq_def]
  dsimp only
  cases oracle attempt <;> rfl

theorem fetchGo_succ (url : String) (retries retryDelay : Nat) (oracle : Nat → AttemptOutcome)
    (dur : Nat → Nat) (left' attempt time : Nat) (events : List FetchEvent) :
    fetchGo url retries retryDelay oracle dur (left' + 1) attempt time events =
      (match oracle attempt with
       | .success body => (time + dur attempt, events ++ [.request url time], .ok body)
       | o =>
         if (outcomeError o).name = "AbortError" ||
             jsIncludes (outcomeError o).message "robots.txt" then
           (time + dur attempt, events ++ [.request url time], .error (outcomeError o))
         else
           fetchGo url retries retryDelay oracle dur left' (attempt + 1)
             (time + dur attempt + retryDelay * 2 ^ attempt)
             (events ++ [.request url time] ++ [.slept (retryDelay * 2 ^ attempt)])) := by
  rw [fetchGo.eq_def]
  dsimp only
  cases oracle attempt <;> rfl

theorem fetchGo_exhaust (url : String) (retries retryDelay : Nat)
    (oracle : Nat → AttemptOutcome) (dur : Nat → Nat)
    (hfail : ∀ i, i ≤ retries → isRetryableFailure (oracle i)) :
    ∀ (left attempt : Nat), attempt + left = retries →
    ∀ (time : Nat) (events : List FetchEvent),
      (fetchGo url retries retryDelay oracle dur left attempt time events).2.2 =
        .error ⟨"Error", "Failed to fetch " ++ url ++ " after " ++ Nat.repr (retries + 1) ++
          " attempts: " ++ (outcomeError (oracle retries)).message⟩ ∧
      (((fetchGo url retries retryDelay oracle dur left attempt time events).2.1).filter
          FetchEvent.isRequest).length =
        (events.filter FetchEvent.isRequest).length + (left + 1) ∧
      sleptList (fetchGo url retries retryDelay oracle dur left attempt time events).2.1 =
        sleptList events ++ (List.range left).map (fun j => retryDelay * 2 ^ (attempt + j)) := by
  intro left
  induction left with
  | zero =>
    intro attempt hsum time events
    have hs : retries = attempt := by omega
    rw [hs]
    obtain ⟨hnotsucc, hname, hmsg⟩ := hfail attempt (by omega)
    rw [fetchGo_zero]
    cases ho : oracle attempt with
    | success body =>
      rw [ho] at hnotsucc
      exact absurd hnotsucc (by simp)
    | httpError status statusText =>
      rw [ho] at hname hmsg
      dsimp only
      rw [if_neg (by simp [hname, hmsg])]
      refine ⟨rfl, ?_, ?_⟩
      · rw [List.filter_append]
        simp [FetchEvent.isRequest]
      · simp [sleptList, List.filterMap_append]
    | netError n m =>
      rw [ho] at hname hmsg
      dsimp only
      rw [if_neg (by simp [hname, hmsg])]
      refine ⟨rfl, ?_, ?_⟩
      · rw [List.filter_append]
        simp [FetchEvent.isRequest]
      · simp [sleptList, List.filterMap_append]
    | aborted =>
      rw [ho] at hname
      exact absurd (show (outcomeError AttemptOutcome.aborted).name = "AbortError" from rfl)
        hname
  | succ left' ih =>
    intro attempt hsum time events
    obtain ⟨hnotsucc, hname, hmsg⟩ := hfail attempt (by omega)
    have hstep : fetchGo url retries retryDelay oracle dur (left' + 1) attempt time events =
        fetchGo url retries retryDelay oracle dur left' (attempt + 1)
          (time + dur attempt + retryDelay * 2 ^ attempt)
          (events ++ [.request url time] ++ [.slept (retryDelay * 2 ^ attempt)]) := by
      rw [fetchGo_succ]
      cases ho : oracle attempt with
      | success body =>
        rw [ho] at hnotsucc
        exact absurd hnotsucc (by simp)
      | httpError status statusText =>
        rw [ho] at hname hmsg
        dsimp only
        rw [if_neg (by simp [hname, hmsg])]
      | netError n m =>
        rw [ho] at hname hmsg
        dsimp only
        rw [if_neg (by simp [hname, hmsg])]
      | aborted =>
        rw [ho] at hname
        exact absurd (show (outcomeError AttemptOutcome.aborted).name = "AbortError" from rfl)
          hname
    rw [hstep]
    have hrec := ih (attempt + 1) (by omega)
      (time + dur attempt + retryDelay * 2 ^ attempt)
      (events ++ [.request url time] ++ [.slept (retryDelay * 2 ^ attempt)])
    refine ⟨hrec.1, ?_, ?_⟩
    · rw [hrec.2.1]
      rw [List.filter_append, List.filter_append]
      simp [FetchEvent.isRequest]
      omega
    · rw [hrec.2.2]
      simp only [sleptList, List.filterMap_append]
      simp only [List.filterMap_cons, List.filterMap_nil]
      simp only [List.append_assoc, List.nil_append]
      rw [List.range_succ_eq_map]
      simp only [List.map_cons, List.map_map, Nat.add_zero]
      congr 1
      rw [List.singleton_append]
      congr 1
      apply List.map_congr_left
      intro j hj
      simp only [Function.comp]
      congr 2
      omega


/-- C4: when every attempt fails retryably, fetchHtml makes exactly
retries plus one HTTP requests, sleeps retryDelay times two to the attempt
index between consecutive attempts, and rejects with the wrapper error
naming the url, the attempt count and the last error message. -/
theorem C4_theorem (url : String) (opts : FetchOptions) (robotsTxt : Option String)
    (oracle : Nat → AttemptOutcome) (dur : Nat → Nat) (time : Nat) (u : URLRec)
    (hurl : parseURL url = some u)
    (hrob : robotsPasses opts robotsTxt u)
    (hfail : ∀ i, i ≤ opts.retries → isRetryableFailure (oracle i)) :
    (fetchHtml url opts robotsTxt oracle dur time).2.2 =
      .error ⟨"Error", "Failed to fetch " ++ url ++ " after " ++
        Nat.repr (opts.retries + 1) ++ " attempts: " ++
        (outcomeError (oracle opts.retries)).message⟩ ∧
    (((fetchHtml url opts robotsTxt oracle dur time).2.1).filter
        FetchEvent.isRequest).length = opts.retries + 1 ∧
    sleptList (fetchHtml url opts robotsTxt oracle dur time).2.1 =
      (List.range opts.retries).map (fun i => opts.retryDelay * 2 ^ i) := by
  have hgate : robotsGate opts robotsTxt (u.pathname ++ urlSearch u) = false := by
    rcases hrob with hcr | hnone | ⟨txt, htxt, hchk⟩
    · simp [robotsGate, hcr]
    · subst hnone
      simp [robotsGate]
    · subst htxt
      simp [robotsGate, hchk]
  simp only [fetchHtml, hurl]
  rw [hgate]
  simp only [Bool.false_eq_true, if_false]
  have h := fetchGo_exhaust url opts.retries opts.retryDelay oracle dur hfail
    opts.retries 0 (by omega) time []
  refine ⟨h.1, ?_, ?_⟩
  · rw [h.2.1]
    simp
  · rw [h.2.2]
    simp [sleptList]

/-- C4: witness. The theorem applied at two retries and a constant
HTTP 500 oracle yields three requests, backoffs of 1000 and 2000, and the
exact wrapper message. -/
theorem C4_witness :
    (fetchHtml "https://example.com/x"
      ⟨"quackfetch/0.1 (+https://github.com/your-repo/quackfetch)", 10000, 2, 1000, false⟩
      none (fun _ => .httpError 500 "Internal Server Error") (fun _ => 0) 0).2.2 =
      .error ⟨"Error",
        "Failed to fetch https://example.com/x after 3 attempts: HTTP 500: Internal Server Error"⟩ ∧
    (((fetchHtml "https://example.com/x"
      ⟨"quackfetch/0.1 (+https://github.com/your-repo/quackfetch)", 10000, 2, 1000, false⟩
      none (fun _ => .httpError 500 "Internal Server Error") (fun _ => 0) 0).2.1).filter
        FetchEvent.isRequest).length = 3 ∧
    sleptList (fetchHtml "https://example.com/x"
      ⟨"quackfetch/0.1 (+https://github.com/your-repo/quackfetch)", 10000, 2, 1000, false⟩
      none (fun _ => .httpError 500 "Internal Server Error") (fun _ => 0) 0).2.1 =
      [1000, 2000] := by
  have h := C4_theorem "https://example.com/x"
    ⟨"quackfetch/0.1 (+https://github.com/your-repo/quackfetch)", 10000, 2, 1000, false⟩
    none (fun _ => .httpError 500 "Internal Server Error") (fun _ => 0) 0
    ⟨"https", "example.com", "/x", none, none⟩ (by decide) (Or.inl rfl)
    (fun i hi => ⟨trivial,
      show (outcomeError (.httpError 500 "Internal Server Error")).name ≠ "AbortError"
        by decide,
      show jsIncludes (outcomeError
        (.httpError 500 "Internal Server Error")).message "robots.txt" = false by decide⟩)
  refine ⟨?_, h.2.1, ?_⟩
  · rw [h.1]
    rfl
  · rw [h.2.2]
    rfl


theorem fetchGo_events (url : String) (retries retryDelay : Nat)
    (oracle : Nat → AttemptOutcome) (dur : Nat → Nat) :
    ∀ (left attempt time : Nat) (events0 : List FetchEvent),
      ∃ tail, (fetchGo url retries retryDelay oracle dur left attempt time events0).2.1 =
        events0 ++ tail ∧
        (∀ e ∈ tail, FetchEvent.isRlUpdate e = false) ∧
        (∀ e ∈ tail, FetchEvent.isRequest e = true →
          ∃ t, e = .request url t ∧ time ≤ t) := by
  intro left
  induction left with
  | zero =>
    intro attempt time events0
    rw [fetchGo_zero]
    refine ⟨[.request url time], ?_, ?_, ?_⟩
    · cases ho : oracle attempt with
      | success body => rfl
      | httpError status statusText =>
        dsimp only
        split <;> rfl
      | netError n m =>
        dsimp only
        split <;> rfl
      | aborted =>
        dsimp only
        split <;> rfl
    · intro e he
      simp at he
      subst he
      rfl
    · intro e he hr
      simp at he
      subst he
      exact ⟨time, rfl, Nat.le_refl _⟩
  | succ left' ih =>
    intro attempt time events0
    rw [fetchGo_succ]
    cases ho : oracle attempt with
    | success body =>
      refine ⟨[.request url time], rfl, ?_, ?_⟩
      · intro e he
        simp at he
        subst he
        rfl
      · intro e he hr
        simp at he
        subst he
        exact ⟨time, rfl, Nat.le_refl _⟩
    | httpError status statusText =>
      dsimp only
      split
      · refine ⟨[.request url time], rfl, ?_, ?_⟩
        · intro e he
          simp at he
          subst he
          rfl
        · intro e he hr
          simp at he
          subst he
          exact ⟨time, rfl, Nat.le_refl _⟩
      · obtain ⟨tail, htail, hnoup, hreq⟩ := ih (attempt + 1)
          (time + dur attempt + retryDelay * 2 ^ attempt)
          (events0 ++ [.request url time] ++ [.slept (retryDelay * 2 ^ attempt)])
        refine ⟨[.request url time] ++ [.slept (retryDelay * 2 ^ attempt)] ++ tail, ?_, ?_, ?_⟩
        · rw [htail]
          simp
        · intro e he
          simp at he
          rcases he with he | he | he
          · subst he
            rfl
          · subst he
            rfl
          · exact hnoup e he
        · intro e he hr
          simp at he
          rcases he with he | he | he
          · subst he
            exact ⟨time, rfl, Nat.le_refl _⟩
          · subst he
            simp [FetchEvent.isRequest] at hr
          · obtain ⟨t, het, hle⟩ := hreq e he hr
            exact ⟨t, het, by omega⟩
    | netError n m =>
      dsimp only
      split
      · refine ⟨[.request url time], rfl, ?_, ?_⟩
        · intro e he
          simp at he
          subst he
          rfl
        · intro e he hr
          simp at he
          subst he
          exact ⟨time, rfl, Nat.le_refl _⟩
      · obtain ⟨tail, htail, hnoup, hreq⟩ := ih (attempt + 1)
          (time + dur attempt + retryDelay * 2 ^ attempt)
          (events0 ++ [.request url time] ++ [.slept (retryDelay * 2 ^ attempt)])
        refine ⟨[.request url time] ++ [.slept (retryDelay * 2 ^ attempt)] ++ tail, ?_, ?_, ?_⟩
        · rw [htail]
          simp
        · intro e he
          simp at he
          rcases he with he | he | he
          · subst he
            rfl
          · subst he
            rfl
          · exact hnoup e he
        · intro e he hr
          simp at he
          rcases he with he | he | he
          · subst he
            exact ⟨time, rfl, Nat.le_refl _⟩
          · subst he
            simp [FetchEvent.isRequest] at hr
          · obtain ⟨t, het, hle⟩ := hreq e he hr
            exact ⟨t, het, by omega⟩
    | aborted =>
      dsimp only
      rw [if_pos (by decide)]
      refine ⟨[.request url time], rfl, ?_, ?_⟩
      · intro e he
        simp at he
        subst he
        rfl
      · intro e he hr
        simp at he
        subst he
        exact ⟨time, rfl, Nat.le_refl _⟩

theorem fetchHtml_events (url : String) (opts : FetchOptions) (robotsTxt : Option String)
    (oracle : Nat → AttemptOutcome) (dur : Nat → Nat) (time : Nat) :
    ∃ tail, (fetchHtml url opts robotsTxt oracle dur time).2.1 = tail ∧
      (∀ e ∈ tail, FetchEvent.isRlUpdate e = false) ∧
      (∀ e ∈ tail, FetchEvent.isRequest e = true →
        ∃ t, e = .request url t ∧ time ≤ t) := by
  unfold fetchHtml
  cases hp : parseURL url with
  | none => exact ⟨[], rfl, by simp, by simp⟩
  | some u =>
    dsimp only
    split
    · exact ⟨[], rfl, by simp, by simp⟩
    · obtain ⟨tail, ht, h1, h2⟩ :=
        fetchGo_events url opts.retries opts.retryDelay oracle dur opts.retries 0 time []
      exact ⟨tail, by simpa using ht, h1, h2⟩

theorem getRateLimitTracker_last (host : String) (rate : Nat) (st : RLState) :
    (getRateLimitTracker host rate st).1.1 = (rlLastRequest st host).getD 0 := by
  unfold getRateLimitTracker rlLastRequest
  cases st.map.find? (fun p => p.1 = host) <;> rfl

theorem getRateLimitTracker_present (host : String) (rate : Nat) (st : RLState) :
    ((getRateLimitTracker host rate st).2.map.find? (fun p => p.1 = host)).isSome = true := by
  unfold getRateLimitTracker
  cases hf : st.map.find? (fun p => p.1 = host) with
  | some p => simp [hf]
  | none =>
    dsimp only
    rw [List.find?_append, hf]
    simp

theorem setLastRequest_find (host : String) (T : Nat) (st : RLState)
    (h : (st.map.find? (fun p => p.1 = host)).isSome = true) :
    rlLastRequest (setLastRequest host T st) host = some T := by
  unfold setLastRequest rlLastRequest
  obtain ⟨l⟩ := st
  dsimp only at h ⊢
  induction l with
  | nil => simp at h
  | cons a l ih =>
    by_cases ha : a.1 = host
    · rw [List.map_cons, List.find?_cons_of_pos _ (by simp [ha])]
      simp [ha]
    · rw [List.find?_cons_of_neg _ (by simp [ha])] at h
      rw [List.map_cons, List.find?_cons_of_neg _ (by simp [ha])]
      exact ih h

theorem enforceRateLimit_spec (host : String) (rate : Nat) (st : RLState) (time : Nat)
    (hmono : ∀ p ∈ st.map, p.2.1 ≤ time) :
    ((rlLastRequest st host).getD 0) + rate ≤ (enforceRateLimit host rate st time).2.1 ∧
    (enforceRateLimit host rate st time).2.2.filter FetchEvent.isRlUpdate =
      [.rlUpdate host (enforceRateLimit host rate st time).2.1] ∧
    (∀ e ∈ (enforceRateLimit host rate st time).2.2, FetchEvent.isRequest e = false) ∧
    rlLastRequest (enforceRateLimit host rate st time).1 host =
      some (enforceRateLimit host rate st time).2.1 ∧
    time ≤ (enforceRateLimit host rate st time).2.1 := by
  have hL : (getRateLimitTracker host rate st).1.1 = (rlLastRequest st host).getD 0 :=
    getRateLimitTracker_last host rate st
  have hLle : (rlLastRequest st host).getD 0 ≤ time := by
    cases hf : st.map.find? (fun p => p.1 = host) with
    | none => simp [rlLastRequest, hf]
    | some p =>
      have hp := hmono p (List.mem_of_find?_eq_some hf)
      simpa [rlLastRequest, hf] using hp
  simp only [enforceRateLimit]
  rw [hL]
  by_cases hw : time - (rlLastRequest st host).getD 0 < rate
  · rw [if_pos hw]
    dsimp only
    refine ⟨by omega, rfl, ?_, ?_, by omega⟩
    · intro e he
      simp at he
      rcases he with he | he <;> subst he <;> rfl
    · exact setLastRequest_find host _ _ (by
        simpa using getRateLimitTracker_present host rate st)
  · rw [if_neg hw]
    dsimp only
    refine ⟨by omega, rfl, ?_, ?_, by omega⟩
    · intro e he
      simp at he
      subst he
      rfl
    · exact setLastRequest_find host _ _ (by
        simpa using getRateLimitTracker_present host rate st)


/-- C3: corrected. fetchHtml performs no rate limiting; the rate limit
lives in searchDuckDuckGoHtml, which enforces it once per call for the
fixed DuckDuckGo host before delegating: the run writes exactly one
tracker update, the enforced start time is at least the previous
lastRequest plus the interval, every request of the call starts no
earlier than it, and the tracker records it. -/
theorem C3_amended (query : String) (opts : SearchFetchOptions) (robotsTxt : Option String)
    (oracle : Nat → AttemptOutcome) (dur : Nat → Nat) (st : RLState) (time : Nat)
    (hmono : ∀ p ∈ st.map, p.2.1 ≤ time) :
    ((searchDuckDuckGoHtml query opts robotsTxt oracle dur st time).2.2.1.filter
        FetchEvent.isRlUpdate) =
      [.rlUpdate ddgHost (enforceRateLimit ddgHost opts.rateLimitMs st time).2.1] ∧
    ((rlLastRequest st ddgHost).getD 0) + opts.rateLimitMs ≤
      (enforceRateLimit ddgHost opts.rateLimitMs st time).2.1 ∧
    (∀ e ∈ (searchDuckDuckGoHtml query opts robotsTxt oracle dur st time).2.2.1,
      FetchEvent.isRequest e = true →
      ∃ t, e = .request ("https://html.duckduckgo.com/html/?q=" ++
          encodeURIComponent query) t ∧
        (enforceRateLimit ddgHost opts.rateLimitMs st time).2.1 ≤ t) ∧
    rlLastRequest (searchDuckDuckGoHtml query opts robotsTxt oracle dur st time).1 ddgHost =
      some (enforceRateLimit ddgHost opts.rateLimitMs st time).2.1 := by
  have hrl := enforceRateLimit_spec ddgHost opts.rateLimitMs st time hmono
  obtain ⟨tail, htail, hnoup, hreq⟩ := fetchHtml_events
    ("https://html.duckduckgo.com/html/?q=" ++ encodeURIComponent query)
    { userAgent := opts.userAgent, timeout := opts.timeout, checkRobots := opts.checkRobots }
    robotsTxt oracle dur (enforceRateLimit ddgHost opts.rateLimitMs st time).2.1
  simp only [searchDuckDuckGoHtml]
  refine ⟨?_, hrl.1, ?_, hrl.2.2.2.1⟩
  · rw [List.filter_append, htail, hrl.2.1]
    have hnil : tail.filter FetchEvent.isRlUpdate = [] := by
      rw [List.filter_eq_nil_iff]
      intro e he
      simp [hnoup e he]
    rw [hnil]
    simp
  · intro e he hre
    rcases List.mem_append.mp he with he | he
    · exact absurd hre (by simp [hrl.2.2.1 e he])
    · rw [htail] at he
      exact hreq e he hre

/-- C3: counterexample to the claim as stated. A fetchHtml run with
retryDelay one issues two requests to the same host one millisecond
apart and writes no rate-limit tracker update, so fetchHtml itself
enforces no per-host minimum interval. -/
theorem C3_counterexample :
    (fetchHtml "https://example.com/x"
      ⟨"quackfetch/0.1 (+https://github.com/your-repo/quackfetch)", 10000, 1, 1, false⟩ none
      (fun i => if i = 0 then .httpError 500 "Internal Server Error" else .success "ok")
      (fun _ => 0) 0).2.1 =
      [.request "https://example.com/x" 0, .slept 1, .request "https://example.com/x" 1] ∧
    ((fetchHtml "https://example.com/x"
      ⟨"quackfetch/0.1 (+https://github.com/your-repo/quackfetch)", 10000, 1, 1, false⟩ none
      (fun i => if i = 0 then .httpError 500 "Internal Server Error" else .success "ok")
      (fun _ => 0) 0).2.1.filter FetchEvent.isRlUpdate) = [] ∧
    1 - 0 < 1000 := by
  refine ⟨by decide, by decide, by decide⟩

/-- C3: witness. The amended theorem applied at a tracker with
lastRequest 400 and a call at time 500 yields the single tracker update
at 1400. -/
theorem C3_witness :
    ((searchDuckDuckGoHtml "a" ⟨"ua", 1000, 10000, false⟩ none (fun _ => .success "ok")
      (fun _ => 0) ⟨[(ddgHost, 400, 1000)]⟩ 500).2.2.1.filter FetchEvent.isRlUpdate) =
      [.rlUpdate ddgHost 1400] ∧
    rlLastRequest (searchDuckDuckGoHtml "a" ⟨"ua", 1000, 10000, false⟩ none
      (fun _ => .success "ok") (fun _ => 0) ⟨[(ddgHost, 400, 1000)]⟩ 500).1 ddgHost =
      some 1400 := by
  have h := C3_amended "a" ⟨"ua", 1000, 10000, false⟩ none (fun _ => .success "ok")
    (fun _ => 0) ⟨[(ddgHost, 400, 1000)]⟩ 500 (by decide)
  constructor
  · rw [h.1]
    decide
  · rw [h.2.2.2]
    decide


theorem encodeURIComponentL_mem {l : List Char} {c : Char}
    (h : c ∈ encodeURIComponentL l) :
    uriUnreserved c = true ∨ c = '%' ∨ ∃ n, n < 16 ∧ c = hexDigitU n := by
  induction l with
  | nil => simp [encodeURIComponentL] at h
  | cons a rest ih =>
    simp only [encodeURIComponentL] at h
    rcases List.mem_append.mp h with h1 | h1
    · split at h1
      · rename_i hu
        simp at h1
        subst h1
        exact Or.inl hu
      · rcases List.mem_flatMap.mp h1 with ⟨b, hb, hc⟩
        simp only [List.mem_cons] at hc
        rcases hc with hc | hc
        · exact Or.inr (Or.inl hc)
        · simp only [hexByte, List.mem_cons, List.not_mem_nil, or_false] at hc
          rcases hc with hc | hc
          · exact Or.inr (Or.inr ⟨b / 16 % 16, Nat.mod_lt _ (by norm_num), hc⟩)
          · exact Or.inr (Or.inr ⟨b % 16, Nat.mod_lt _ (by norm_num), hc⟩)
    · exact ih h1

theorem encChar_safe {l : List Char} {c : Char} (h : c ∈ encodeURIComponentL l) :
    c.isWhitespace = false ∧ c ≠ '#' := by
  rcases encodeURIComponentL_mem h with hu | hc | ⟨n, hn, hc⟩
  · constructor
    · cases hw : c.isWhitespace
      · rfl
      · exfalso
        have hor : c = ' ' ∨ c = '\t' ∨ c = '\r' ∨ c = '\n' := by
          simpa [Char.isWhitespace, or_assoc] using hw
        rcases hor with h1 | h1 | h1 | h1 <;> subst h1 <;> exact absurd hu (by decide)
    · intro hc
      subst hc
      exact absurd hu (by decide)
  · subst hc
    exact ⟨by decide, by decide⟩
  · subst hc
    interval_cases n <;> exact ⟨by decide, by decide⟩

theorem dropWhile_eq_self_of {α : Type} (p : α → Bool) (l : List α)
    (h : ∀ c ∈ l, p c = false) : l.dropWhile p = l := by
  cases l with
  | nil => rfl
  | cons a t =>
    exact List.dropWhile_cons_of_neg (by simp [h a (List.mem_cons_self a t)])

theorem jsTrim_eq_self {s : String} (h : ∀ c ∈ s.data, c.isWhitespace = false) :
    jsTrim s = s := by
  obtain ⟨d⟩ := s
  unfold jsTrim
  rw [dropWhile_eq_self_of _ _ h]
  rw [dropWhile_eq_self_of _ _ (by
    intro c hc
    exact h c (List.mem_reverse.mp hc))]
  simp

theorem parseURL_searchUrl (query : String) :
    parseURL ("https://html.duckduckgo.com/html/?q=" ++ encodeURIComponent query) =
      some ⟨"https", "html.duckduckgo.com", "/html/",
        some ("q=" ++ encodeURIComponent query), none⟩ := by
  have hdata : ("https://html.duckduckgo.com/html/?q=" ++ encodeURIComponent query).data =
      "https://html.duckduckgo.com/html/?q=".data ++ (encodeURIComponent query).data :=
    String.data_append _ _
  have hencmem : ∀ c ∈ (encodeURIComponent query).data, c ∈ encodeURIComponentL query.data := by
    intro c hc
    exact hc
  have hws : ∀ c ∈ ("https://html.duckduckgo.com/html/?q=" ++ encodeURIComponent query).data,
      c.isWhitespace = false := by
    rw [hdata]
    intro c hc
    rcases List.mem_append.mp hc with hpre | henc
    · clear hc
      revert c
      decide
    · exact (encChar_safe (hencmem c henc)).1
  unfold parseURL
  rw [jsTrim_eq_self hws, hdata]
  dsimp only
  have hbreak : breakOnSeq "://".data
      ("https://html.duckduckgo.com/html/?q=".data ++ (encodeURIComponent query).data) =
      some ("https".data, "html.duckduckgo.com/html/?q=".data ++ (encodeURIComponent query).data) := rfl
  rw [hbreak]
  dsimp only
  rw [if_pos (by decide)]
  have hhost : splitAtStops ['/', '?', '#']
      ("html.duckduckgo.com/html/?q=".data ++ (encodeURIComponent query).data) =
      ("html.duckduckgo.com".data, "/html/?q=".data ++ (encodeURIComponent query).data) := rfl
  rw [hhost]
  dsimp only
  rw [if_neg (by decide)]
  have hpath : splitAtStops ['?', '#']
      ("/html/?q=".data ++ (encodeURIComponent query).data) =
      ("/html/".data, '?' :: 'q' :: '=' :: (encodeURIComponent query).data) := rfl
  rw [hpath]
  dsimp only
  rw [if_pos rfl]
  have hq : splitAtStops ['#'] ('q' :: '=' :: (encodeURIComponent query).data) =
      ('q' :: '=' :: (encodeURIComponent query).data, []) := by
    unfold splitAtStops
    rw [List.takeWhile_eq_self_iff.mpr, List.dropWhile_eq_nil_iff.mpr]
    · intro x hx
      simp only [List.mem_cons] at hx
      rcases hx with hx | hx | hx
      · subst hx; decide
      · subst hx; decide
      · simp [(encChar_safe (hencmem x hx)).2]
    · intro x hx
      simp only [List.mem_cons] at hx
      rcases hx with hx | hx | hx
      · subst hx; decide
      · subst hx; decide
      · simp [(encChar_safe (hencmem x hx)).2]
  rw [hq]
  rfl

theorem enforceRateLimit_no_request (host : String) (rate : Nat) (st : RLState)
    (time : Nat) :
    ∀ e ∈ (enforceRateLimit host rate st time).2.2, FetchEvent.isRequest e = false := by
  simp only [enforceRateLimit]
  by_cases hw : time - (getRateLimitTracker host rate st).1.1 < rate
  · rw [if_pos hw]
    intro e he
    simp at he
    rcases he with he | he <;> subst he <;> rfl
  · rw [if_neg hw]
    intro e he
    simp at he
    subst he
    rfl

theorem robotsGate_off (opts : FetchOptions) (robotsTxt : Option String) (path : String)
    (h : opts.checkRobots = false) : robotsGate opts robotsTxt path = false := by
  unfold robotsGate
  rw [h]
  rfl

theorem fetchGo_has_request (url : String) (retries retryDelay : Nat)
    (oracle : Nat → AttemptOutcome) (dur : Nat → Nat) :
    ∀ (left attempt time : Nat) (events0 : List FetchEvent),
      FetchEvent.request url time ∈
        (fetchGo url retries retryDelay oracle dur left attempt time events0).2.1 := by
  intro left
  induction left with
  | zero =>
    intro attempt time events0
    rw [fetchGo_zero]
    cases ho : oracle attempt with
    | success body => simp
    | httpError status statusText =>
      dsimp only
      split <;> simp
    | netError n m =>
      dsimp only
      split <;> simp
    | aborted =>
      dsimp only
      rw [if_pos (by decide)]
      simp
  | succ left2 ih =>
    intro attempt time events0
    rw [fetchGo_succ]
    cases ho : oracle attempt with
    | success body => simp
    | httpError status statusText =>
      dsimp only
      split
      · simp
      · obtain ⟨tail, htail, h1, h2⟩ := fetchGo_events url retries retryDelay oracle dur
          left2 (attempt + 1) (time + dur attempt + retryDelay * 2 ^ attempt)
          (events0 ++ [.request url time] ++ [.slept (retryDelay * 2 ^ attempt)])
        rw [htail]
        simp
    | netError n m =>
      dsimp only
      split
      · simp
      · obtain ⟨tail, htail, h1, h2⟩ := fetchGo_events url retries retryDelay oracle dur
          left2 (attempt + 1) (time + dur attempt + retryDelay * 2 ^ attempt)
          (events0 ++ [.request url time] ++ [.slept (retryDelay * 2 ^ attempt)])
        rw [htail]
        simp
    | aborted =>
      dsimp only
      rw [if_pos (by decide)]
      simp

theorem fetchHtml_has_request (url : String) (opts : FetchOptions)
    (robotsTxt : Option String) (oracle : Nat → AttemptOutcome) (dur : Nat → Nat)
    (time : Nat) (u : URLRec) (hp : parseURL url = some u)
    (hg : robotsGate opts robotsTxt (u.pathname ++ urlSearch u) = false) :
    FetchEvent.request url time ∈ (fetchHtml url opts robotsTxt oracle dur time).2.1 := by
  unfold fetchHtml
  rw [hp]
  dsimp only
  split
  · rename_i hgate
    rw [hg] at hgate
    cases hgate
  · exact fetchGo_has_request url opts.retries opts.retryDelay oracle dur opts.retries 0 time []

/-- C7: corrected. Every HTTP request that a run of searchDuckDuckGoHtml
emits goes to https://html.duckduckgo.com/html/?q= followed by
encodeURIComponent of the query, under which a space becomes %20 rather
than the plus sign the specification describes; when robots checking is
disabled the run emits at least one such request. -/
theorem C7_amended (query : String) (opts : SearchFetchOptions) (robotsTxt : Option String)
    (oracle : Nat → AttemptOutcome) (dur : Nat → Nat) (st : RLState) (time : Nat) :
    (∀ e ∈ (searchDuckDuckGoHtml query opts robotsTxt oracle dur st time).2.2.1,
        FetchEvent.isRequest e = true →
        ∃ t, e = FetchEvent.request
          ("https://html.duckduckgo.com/html/?q=" ++ encodeURIComponent query) t) ∧
    (opts.checkRobots = false →
      ∃ e ∈ (searchDuckDuckGoHtml query opts robotsTxt oracle dur st time).2.2.1,
        FetchEvent.isRequest e = true) ∧
    encodeURIComponent " " = "%20" := by
  obtain ⟨tail, htail, hnoup, hreq⟩ := fetchHtml_events
    ("https://html.duckduckgo.com/html/?q=" ++ encodeURIComponent query)
    { userAgent := opts.userAgent, timeout := opts.timeout,
      checkRobots := opts.checkRobots }
    robotsTxt oracle dur (enforceRateLimit ddgHost opts.rateLimitMs st time).2.1
  refine ⟨?_, ?_, by decide⟩
  · simp only [searchDuckDuckGoHtml]
    intro e he hre
    rcases List.mem_append.mp he with he | he
    · exact absurd hre
        (by simp [enforceRateLimit_no_request ddgHost opts.rateLimitMs st time e he])
    · rw [htail] at he
      obtain ⟨t, het, hle⟩ := hreq e he hre
      exact ⟨t, het⟩
  · intro hcr
    refine ⟨FetchEvent.request
      ("https://html.duckduckgo.com/html/?q=" ++ encodeURIComponent query)
      (enforceRateLimit ddgHost opts.rateLimitMs st time).2.1, ?_, rfl⟩
    simp only [searchDuckDuckGoHtml]
    apply List.mem_append_right
    exact fetchHtml_has_request _ _ robotsTxt oracle dur _ _ (parseURL_searchUrl query)
      (robotsGate_off _ robotsTxt _ hcr)

/-- C7: counterexample to the claim as stated. For the query with a space,
the one request of a concrete run goes to the URL whose query value is
test%20query, while the encoding the specification describes (spaces
become a plus sign) yields test+query, a different URL. -/
theorem C7_counterexample :
    (searchDuckDuckGoHtml "test query" ⟨"ua", 1000, 10000, false⟩ none
        (fun i => AttemptOutcome.success "ok") (fun i => 0) ⟨[]⟩ 5000).2.2.1 =
      [FetchEvent.rlUpdate ddgHost 5000,
       FetchEvent.request "https://html.duckduckgo.com/html/?q=test%20query" 5000] ∧
    specQueryValueEncoding "test query" = "test+query" ∧
    "https://html.duckduckgo.com/html/?q=test%20query" ≠
      "https://html.duckduckgo.com/html/?q=" ++ specQueryValueEncoding "test query" := by
  refine ⟨by decide, by decide, by decide⟩

/-- C7: witness. The amended theorem applied at a concrete query, options
with robots checking disabled, and a concrete oracle produces a request
event. -/
theorem C7_witness :
    ∃ e ∈ (searchDuckDuckGoHtml "test query" ⟨"ua", 1000, 10000, false⟩ none
        (fun i => AttemptOutcome.success "ok") (fun i => 0) ⟨[]⟩ 5000).2.2.1,
      FetchEvent.isRequest e = true :=
  (C7_amended "test query" ⟨"ua", 1000, 10000, false⟩ none
    (fun i => AttemptOutcome.success "ok") (fun i => 0) ⟨[]⟩ 5000).2.1 rfl


def setsOf : List CacheOp → List (String × List SearchResult)
  | [] => []
  | .set k v :: rest => (k, v) :: setsOf rest
  | .get _ :: rest => setsOf rest
  | .has _ :: rest => setsOf rest

theorem runOps_eq_foldl (now : Nat) :
    ∀ (ops : List CacheOp) (c : SpecCache),
      runOps now ops c = (setsOf ops).foldl (fun c2 kv => c2.set kv.1 kv.2 now) c := by
  intro ops
  induction ops with
  | nil => intro c; rfl
  | cons op rest ih =>
    intro c
    cases op with
    | set k v =>
      simp only [runOps, setsOf, List.foldl_cons]
      exact ih _
    | get k =>
      simp only [runOps, setsOf]
      exact ih c
    | has k =>
      simp only [runOps, setsOf]
      exact ih c

theorem SpecCache.set_maxSize (c : SpecCache) (k : String) (v : List SearchResult)
    (now : Nat) : (c.set k v now).maxSize = c.maxSize := rfl

theorem foldl_set_entries (now : Nat) :
    ∀ (kvs : List (String × List SearchResult)) (c : SpecCache),
      (kvs.map Prod.fst).Nodup →
      (∀ e ∈ c.entries, ∀ kv ∈ kvs, e.1 ≠ kv.1) →
      c.entries.length ≤ c.maxSize →
      (kvs.foldl (fun c2 kv => c2.set kv.1 kv.2 now) c).entries =
        (c.entries ++ kvs.map (fun kv => (kv.1, kv.2, now))).drop
          (c.entries.length + kvs.length - c.maxSize) ∧
      (kvs.foldl (fun c2 kv => c2.set kv.1 kv.2 now) c).maxSize = c.maxSize := by
  intro kvs
  induction kvs with
  | nil =>
    intro c hnodup hdisj hlen
    constructor
    · simp only [List.foldl_nil, List.map_nil, List.append_nil, List.length_nil,
        Nat.add_zero]
      rw [Nat.sub_eq_zero_of_le hlen, List.drop_zero]
    · rfl
  | cons kv kvs ih =>
    intro c hnodup hdisj hlen
    obtain ⟨k, v⟩ := kv
    simp only [List.foldl_cons]
    have hfilter : c.entries.filter (fun e => e.1 ≠ k) = c.entries := by
      rw [List.filter_eq_self]
      intro a ha
      simp only [decide_not, Bool.not_eq_eq_eq_not, Bool.not_true, decide_eq_false_iff_not]
      exact hdisj a ha (k, v) (List.mem_cons_self _ _)
    have hc1 : (c.set k v now).entries =
        (c.entries ++ [(k, v, now)]).drop (c.entries.length + 1 - c.maxSize) := by
      simp only [SpecCache.set, hfilter, List.length_append, List.length_cons,
        List.length_nil, Nat.zero_add]
    have hc1m : (c.set k v now).maxSize = c.maxSize := rfl
    have hc1len : (c.set k v now).entries.length ≤ c.maxSize := by
      rw [hc1, List.length_drop]
      simp only [List.length_append, List.length_cons, List.length_nil]
      omega
    have hknotin : k ∉ kvs.map Prod.fst := by
      rw [List.map_cons] at hnodup
      exact (List.nodup_cons.mp hnodup).1
    have hdisj1 : ∀ e ∈ (c.set k v now).entries, ∀ kv2 ∈ kvs, e.1 ≠ kv2.1 := by
      intro e he kv2 hkv2
      rw [hc1] at he
      have he2 := List.mem_of_mem_drop he
      rcases List.mem_append.mp he2 with he3 | he3
      · exact hdisj e he3 kv2 (List.mem_cons_of_mem _ hkv2)
      · simp only [List.mem_cons, List.not_mem_nil, or_false] at he3
        subst he3
        intro hcon
        apply hknotin
        have hk : k = kv2.1 := hcon
        rw [hk]
        exact List.mem_map_of_mem Prod.fst hkv2
    have hnodup1 : (kvs.map Prod.fst).Nodup := by
      rw [List.map_cons] at hnodup
      exact (List.nodup_cons.mp hnodup).2
    obtain ⟨hent, hmax⟩ := ih (c.set k v now) hnodup1 hdisj1 hc1len
    constructor
    · rw [hent, hc1m, hc1]
      rw [← List.drop_append_of_le_length (by
        simp only [List.length_append, List.length_cons, List.length_nil]
        omega)]
      rw [List.drop_drop]
      rw [List.append_assoc, List.singleton_append]
      rw [List.length_drop]
      simp only [List.length_append, List.length_cons, List.length_nil, List.map_cons,
        List.length_map]
      congr 1
      omega
    · rw [hmax]
      rfl

/-- C2: spec-modelled. Running maxSize plus one insertions with pairwise
distinct keys from the empty cache, interleaved arbitrarily with get and
has reads at a fixed time, leaves exactly maxSize entries whose keys are
the inserted keys after the first, in insertion order: the first-inserted
key is evicted, and the reads change nothing because reads never refresh
recency. -/
theorem C2_theorem (m ttl now : Nat) (ops : List CacheOp)
    (hlen : (setsOf ops).length = m + 1)
    (hnodup : ((setsOf ops).map Prod.fst).Nodup) :
    (runOps now ops (SpecCache.empty m ttl)).keys =
      ((setsOf ops).map Prod.fst).drop 1 ∧
    (runOps now ops (SpecCache.empty m ttl)).keys.length = m ∧
    ∀ k0, ((setsOf ops).map Prod.fst).head? = some k0 →
      k0 ∉ (runOps now ops (SpecCache.empty m ttl)).keys := by
  have hfold := runOps_eq_foldl now ops (SpecCache.empty m ttl)
  obtain ⟨hent, hmax⟩ := foldl_set_entries now (setsOf ops) (SpecCache.empty m ttl)
    hnodup (by intro e he kv hkv; simp [SpecCache.empty] at he) (by simp [SpecCache.empty])
  have h1 : (SpecCache.empty m ttl).entries.length + (setsOf ops).length -
      (SpecCache.empty m ttl).maxSize = 1 := by
    simp only [SpecCache.empty, List.length_nil, Nat.zero_add, hlen]
    omega
  have hkeys : (runOps now ops (SpecCache.empty m ttl)).keys =
      ((setsOf ops).map Prod.fst).drop 1 := by
    simp only [SpecCache.keys]
    rw [hfold, hent, h1]
    simp only [SpecCache.empty, List.nil_append]
    rw [List.map_drop, List.map_map]
    rfl
  refine ⟨hkeys, ?_, ?_⟩
  · rw [hkeys, List.length_drop, List.length_map, hlen]
    omega
  · intro k0 hk0
    rw [hkeys]
    cases hks : (setsOf ops).map Prod.fst with
    | nil =>
      rw [hks] at hk0
      simp at hk0
    | cons a t =>
      rw [hks] at hk0
      simp only [List.head?_cons, Option.some_inj] at hk0
      subst hk0
      rw [hks] at hnodup
      simp only [List.drop_succ_cons, List.drop_zero]
      exact (List.nodup_cons.mp hnodup).1

/-- C2: witness. Three insertions of distinct keys into a two-entry cache,
with reads of the first key between them, leave the later two keys and
evict the first. -/
theorem C2_witness :
    (runOps 0 [CacheOp.set "a" [], CacheOp.get "a", CacheOp.set "b" [],
      CacheOp.has "a", CacheOp.set "c" []] (SpecCache.empty 2 1000)).keys = ["b", "c"] ∧
    "a" ∉ (runOps 0 [CacheOp.set "a" [], CacheOp.get "a", CacheOp.set "b" [],
      CacheOp.has "a", CacheOp.set "c" []] (SpecCache.empty 2 1000)).keys := by
  have h := C2_theorem 2 1000 0 [CacheOp.set "a" [], CacheOp.get "a", CacheOp.set "b" [],
    CacheOp.has "a", CacheOp.set "c" []] (by rfl) (by decide)
  refine ⟨?_, h.2.2 "a" rfl⟩
  rw [h.1]
  rfl

theorem SpecCache.get_set_fresh (c : SpecCache) (k : String) (v : List SearchResult)
    (now now2 : Nat) (hsz : 1 ≤ c.maxSize) (hfresh : now2 < now + c.ttl) :
    (c.set k v now).get k now2 = some v := by
  unfold SpecCache.set SpecCache.get
  dsimp only
  rw [List.drop_append_of_le_length (by
    simp only [List.length_append, List.length_cons, List.length_nil]
    omega)]
  have hnone : ∀ d, ((c.entries.filter (fun e => decide (e.1 ≠ k))).drop d).find?
      (fun e => decide (e.1 = k)) = none := by
    intro d
    rw [List.find?_eq_none]
    intro x hx
    have hx2 := List.of_mem_filter (List.mem_of_mem_drop hx)
    simp only [decide_not, Bool.not_eq_eq_eq_not, Bool.not_true,
      decide_eq_false_iff_not] at hx2
    simp only [decide_eq_true_eq]
    exact hx2
  rw [List.find?_append, hnone _]
  simp only [Option.none_or]
  rw [List.find?_cons_of_pos _ (by simp)]
  dsimp only
  rw [if_pos hfresh]

theorem emitPrimary_cached (now : String) (acc : List SearchResult) (el : RawResult) :
    ∀ r ∈ emitPrimary now acc el, r ∈ acc ∨ r.cached = none := by
  intro r hr
  simp only [emitPrimary] at hr
  split at hr
  · rcases List.mem_append.mp hr with h | h
    · exact Or.inl h
    · simp only [List.mem_cons, List.not_mem_nil, or_false] at h
      subst h
      exact Or.inr rfl
  · exact Or.inl hr

theorem emitFallback_cached (now : String) (acc : List SearchResult) (el : RawFallback) :
    ∀ r ∈ emitFallback now acc el, r ∈ acc ∨ r.cached = none := by
  intro r hr
  simp only [emitFallback] at hr
  split at hr
  · rcases List.mem_append.mp hr with h | h
    · exact Or.inl h
    · simp only [List.mem_cons, List.not_mem_nil, or_false] at h
      subst h
      exact Or.inr rfl
  · exact Or.inl hr

theorem boundedLoop_cached_none {α : Type} (emit : List SearchResult → α → List SearchResult)
    (maxResults : Nat)
    (hemit : ∀ acc el, ∀ r ∈ emit acc el, r ∈ acc ∨ r.cached = none) :
    ∀ (els : List α) (acc : List SearchResult),
      (∀ r ∈ acc, r.cached = none) →
      ∀ r ∈ boundedLoop emit maxResults els acc, r.cached = none := by
  intro els
  induction els with
  | nil =>
    intro acc hacc r hr
    exact hacc r hr
  | cons el rest ih =>
    intro acc hacc r hr
    simp only [boundedLoop] at hr
    split at hr
    · exact hacc r hr
    · refine ih (emit acc el) ?_ r hr
      intro r2 hr2
      rcases hemit acc el r2 hr2 with h | h
      · exact hacc r2 h
      · exact h

theorem parseSearchHtml_cached_none (doc : Option HtmlDoc) (m : Nat) (now : String) :
    ∀ r ∈ parseSearchHtml doc m now, r.cached = none := by
  intro r hr
  cases doc with
  | none => simp [parseSearchHtml] at hr
  | some d =>
    simp only [parseSearchHtml] at hr
    split at hr
    · exact boundedLoop_cached_none (emitFallback now) m (emitFallback_cached now)
        d.fallbackEls [] (by intro r2 hr2; simp at hr2) r hr
    · exact boundedLoop_cached_none (emitPrimary now) m (emitPrimary_cached now)
        d.primaryEls [] (by intro r2 hr2; simp at hr2) r hr

theorem fetchHtml_ok_request (url : String) (opts : FetchOptions) (robotsTxt : Option String)
    (oracle : Nat → AttemptOutcome) (dur : Nat → Nat) (time : Nat) (html : String)
    (hok : (fetchHtml url opts robotsTxt oracle dur time).2.2 = Except.ok html) :
    ∃ e ∈ (fetchHtml url opts robotsTxt oracle dur time).2.1,
      FetchEvent.isRequest e = true := by
  unfold fetchHtml at hok ⊢
  cases hp : parseURL url with
  | none =>
    rw [hp] at hok
    simp at hok
  | some u =>
    rw [hp] at hok
    dsimp only at hok ⊢
    split at hok
    · simp at hok
    · rename_i hg
      rw [if_neg hg]
      exact ⟨FetchEvent.request url time,
        fetchGo_has_request url opts.retries opts.retryDelay oracle dur
          opts.retries 0 time [], rfl⟩

theorem searchDuckDuckGoHtml_ok_request (query : String) (opts : SearchFetchOptions)
    (robotsTxt : Option String) (oracle : Nat → AttemptOutcome) (dur : Nat → Nat)
    (st : RLState) (time : Nat) (html : String)
    (hok : (searchDuckDuckGoHtml query opts robotsTxt oracle dur st time).2.2.2 =
      Except.ok html) :
    ∃ e ∈ (searchDuckDuckGoHtml query opts robotsTxt oracle dur st time).2.2.1,
      FetchEvent.isRequest e = true := by
  simp only [searchDuckDuckGoHtml] at hok ⊢
  obtain ⟨e, he, hre⟩ := fetchHtml_ok_request _ _ robotsTxt oracle dur _ html hok
  exact ⟨e, List.mem_append_right _ he, hre⟩

/-- C1: with caching enabled, a valid query, a cache miss at the first
call, a successful fetch whose parse yields a non-empty result list, and
room in the cache instance the call uses, the first search stores the
results at the post-fetch time and returns them with no cached flag,
having issued at least one HTTP request; a second call with the same
query and options, while the stored entry is fresh, issues no network
request at all (its event list is empty), returns the first call results
with cached true stamped on each, and leaves the module state
unchanged. -/
theorem C1_theorem (query : String) (options : SearchOptions) (robotsTxt : Option String)
    (oracle : Nat → AttemptOutcome) (dur : Nat → Nat) (loadHtml : String → HtmlDoc)
    (retrievedAt : String) (now now2 : Nat) (st : IndexState) (cache0 : SpecCache)
    (html : String) (fe : RLState × Nat × List FetchEvent × Except JsError String)
    (results : List SearchResult)
    (hq : ¬ jsTrim query = "")
    (huc : (options.useCache).getD true = true)
    (hc0 : effectiveCache options st = some cache0)
    (hmiss : cache0.has (generateCacheKey query options) now = false)
    (hfe : searchDuckDuckGoHtml query (searchFetchOpts options) robotsTxt oracle dur
      st.rl now = fe)
    (hok : fe.2.2.2 = Except.ok html)
    (hresults : parseSearchHtml (if html = "" then none else some (loadHtml html))
      ((options.max).getD 10) retrievedAt = results)
    (hne : results ≠ [])
    (hsz : 1 ≤ cache0.maxSize)
    (hfresh : now2 < fe.2.1 + cache0.ttl) :
    search query options robotsTxt oracle dur loadHtml retrievedAt now st =
      (⟨some (cache0.set (generateCacheKey query options) results fe.2.1), fe.1⟩,
        fe.2.2.1, Except.ok results) ∧
    (∃ e ∈ (search query options robotsTxt oracle dur loadHtml retrievedAt now st).2.1,
      FetchEvent.isRequest e = true) ∧
    search query options robotsTxt oracle dur loadHtml retrievedAt now2
        (search query options robotsTxt oracle dur loadHtml retrievedAt now st).1 =
      ((search query options robotsTxt oracle dur loadHtml retrievedAt now st).1, [],
        Except.ok (results.map (fun r => { r with cached := some true }))) ∧
    (∀ r ∈ results, r.cached = none) ∧
    (∀ r ∈ results.map (fun r => { r with cached := some true }),
      r.cached = some true) := by
  have hfirst : search query options robotsTxt oracle dur loadHtml retrievedAt now st =
      (⟨some (cache0.set (generateCacheKey query options) results fe.2.1), fe.1⟩,
        fe.2.2.1, Except.ok results) := by
    unfold search
    rw [if_neg hq]
    dsimp only
    rw [if_pos huc, hc0]
    dsimp only
    rw [if_neg (by simp [hmiss])]
    dsimp only
    rw [hfe, hok]
    dsimp only
    rw [hresults, if_pos huc, if_pos (List.length_pos.mpr hne)]
    rfl
  have hget : (cache0.set (generateCacheKey query options) results fe.2.1).get
      (generateCacheKey query options) now2 = some results :=
    SpecCache.get_set_fresh cache0 _ results fe.2.1 now2 hsz hfresh
  refine ⟨hfirst, ?_, ?_, ?_, ?_⟩
  · rw [hfirst]
    dsimp only
    rw [← hfe]
    exact searchDuckDuckGoHtml_ok_request query (searchFetchOpts options) robotsTxt
      oracle dur st.rl now html (by rw [hfe]; exact hok)
  · have hc1 : effectiveCache options
        ⟨some (cache0.set (generateCacheKey query options) results fe.2.1), fe.1⟩ =
        some (cache0.set (generateCacheKey query options) results fe.2.1) := by
      simp [effectiveCache, huc]
    have hhas : (cache0.set (generateCacheKey query options) results fe.2.1).has
        (generateCacheKey query options) now2 = true := by
      simp [SpecCache.has, hget]
    rw [hfirst]
    dsimp only
    unfold search
    rw [if_neg hq]
    dsimp only
    rw [if_pos huc, hc1]
    dsimp only
    rw [if_pos hhas, hget]
  · intro r hr
    rw [← hresults] at hr
    exact parseSearchHtml_cached_none _ _ _ r hr
  · intro r hr
    simp only [List.mem_map] at hr
    obtain ⟨r0, hr0, hr1⟩ := hr
    rw [← hr1]

/-- C1: witness. A concrete first call from the fresh module state fetches
one result and stores it; the second call five milliseconds later returns
the stored result stamped cached true, with an empty event list and the
state unchanged. -/
theorem C1_witness :
    search "q1" {} none (fun a => AttemptOutcome.success "<html>") (fun a => 0)
        (fun s => ⟨[⟨"T", some "https://example.com/", "S", "", ""⟩], []⟩) "t0" 5005
        (search "q1" {} none (fun a => AttemptOutcome.success "<html>") (fun a => 0)
          (fun s => ⟨[⟨"T", some "https://example.com/", "S", "", ""⟩], []⟩) "t0" 5000
          ⟨none, ⟨[]⟩⟩).1 =
      ((search "q1" {} none (fun a => AttemptOutcome.success "<html>") (fun a => 0)
          (fun s => ⟨[⟨"T", some "https://example.com/", "S", "", ""⟩], []⟩) "t0" 5000
          ⟨none, ⟨[]⟩⟩).1, [],
        Except.ok ((parseSearchHtml (some ⟨[⟨"T", some "https://example.com/", "S", "",
          ""⟩], []⟩) 10 "t0").map (fun r => { r with cached := some true }))) := by
  have h := C1_theorem "q1" {} none (fun a => AttemptOutcome.success "<html>") (fun a => 0)
    (fun s => ⟨[⟨"T", some "https://example.com/", "S", "", ""⟩], []⟩) "t0" 5000 5005
    ⟨none, ⟨[]⟩⟩ (SpecCache.empty 100 300000) "<html>"
    (searchDuckDuckGoHtml "q1" (searchFetchOpts {}) none
      (fun a => AttemptOutcome.success "<html>") (fun a => 0) ⟨[]⟩ 5000)
    (parseSearchHtml (some ⟨[⟨"T", some "https://example.com/", "S", "", ""⟩], []⟩) 10 "t0")
    (by decide) rfl rfl rfl rfl rfl rfl (by decide) (by decide) (by decide)
  exact h.2.2.1

end Quackfetch
